import Mathlib

/-!
Verification development for the KnowFlow repeated-pattern detection engine.

The repository has two engines operating on a parsed DOM tree:
  * `src/api/app.py` — the fingerprint-dominant engine
    (`get_css_path`, `get_xpath`, `generar_huella`,
     `obtener_atributos_descendientes_con_ruta_y_texto`,
     `encontrar_contenedores_relevantes`);
  * `src/api/semantic_container_detector.py` — the statistical engine
    (`collect_attrs`, `analyze_container`, `es_contenedor_valido`,
     `candidate_containers`, `analyze_html_all`).

The HTML parse itself is external (BeautifulSoup); following the spec's data
model, we embed the already-parsed DOM as an inductive tree of element and
text nodes.  A node of a document is addressed by its position: the list of
child indices from the document root.  Python floats are modelled as exact
rationals, Python dicts as association lists with insertion-order semantics
(first-insertion position kept, later writes update in place), and Python's
stable `list.sort` as a stable insertion sort.
-/

set_option maxHeartbeats 1000000

-- Batteries marks the `Rat` field operations `@[irreducible]`; the engines'
-- exact-rational arithmetic must evaluate inside `decide`/`rfl` proofs, so
-- they are downgraded to their normal reducibility here.
set_option allowUnsafeReducibility true
attribute [semireducible] Rat.add Rat.mul Rat.inv Rat.sub Rat.div

namespace KnowFlow

/-- A parsed DOM node: an element (tag name, ordered attribute list, ordered
children) or a navigable text string.  Attribute values are already
string-joined (bs4 joins list-valued attributes with spaces before the engine
sees them). -/
inductive Node where
  | elem (name : String) (attrs : List (String × String)) (children : List Node)
  | text (s : String)

/-- Tag name of a node (`tag.name`); text nodes have none (Python `None`),
rendered here as `""` and always guarded by `isElem` at use sites. -/
def nodeName : Node → String
  | .elem nm _ _ => nm
  | .text _ => ""

/-- The check `hasattr(h, 'name') and h.name is not None`: the node is a
Tag. -/
def isElem : Node → Bool
  | .elem _ _ _ => true
  | .text _ => false

/-- The element children of a children list
(`[h for h in contents if h.name is not None]`, also
`find_all(recursive=False)` restricted to Tags). -/
def elemChildren (cs : List Node) : List Node := cs.filter isElem

mutual
/-- bs4 `Tag.__eq__`: same name, same attributes, same contents, recursively.
(bs4 compares the attribute dicts; here the ordered lists are compared.  The
development only relies on this equality being reflexive.) -/
def beqNode : Node → Node → Bool
  | .text a, .text b => a == b
  | .elem n1 a1 c1, .elem n2 a2 c2 =>
    n1 == n2 && a1 == a2 && beqNodeList c1 c2
  | _, _ => false

/-- bs4 contents equality: pointwise `Tag.__eq__` on the child lists. -/
def beqNodeList : List Node → List Node → Bool
  | [], [] => true
  | x :: xs, y :: ys => beqNode x y && beqNodeList xs ys
  | _, _ => false
end

/-- Positions: `getNode root p` resolves the child-index path `p` from the
document root, the structural identity of a node inside one document. -/
def getNode : Node → List Nat → Option Node
  | n, [] => some n
  | .elem _ _ cs, i :: p =>
    match cs.get? i with
    | some c => getNode c p
    | none => none
  | .text _, _ :: _ => none

mutual
/-- All element positions of a document, preorder, excluding the root itself
(`soup.find_all(True)` does not yield the soup object). -/
def elemPositions : Node → List (List Nat)
  | .text _ => []
  | .elem _ _ cs => elemPosAux cs 0

/-- Positions of all element descendants in document (preorder) order, the
iteration order of `soup.find_all(True)`: `i` is the child index of the
first list entry. -/
def elemPosAux : List Node → Nat → List (List Nat)
  | [], _ => []
  | .text _ :: rest, i => elemPosAux rest (i + 1)
  | .elem nm a cs :: rest, i =>
    [i] :: ((elemPosItems (.elem nm a cs)).map (fun p => i :: p) ++
      elemPosAux rest (i + 1))

/-- Element-descendant positions below one node. -/
def elemPosItems : Node → List (List Nat)
  | .text _ => []
  | .elem _ _ cs => elemPosAux cs 0
end

/-- Python `str.strip()`: drop leading and trailing whitespace characters.
(Python also strips some rarer Unicode whitespace; the engines' inputs make
no use of the difference.) -/
def pyStrip (s : String) : String :=
  String.mk
    (((s.data.dropWhile Char.isWhitespace).reverse.dropWhile
      Char.isWhitespace).reverse)

/-- Python `str.join`: `joinWith sep [a, b, c] = a ++ sep ++ b ++ sep ++ c`. -/
def joinWith (sep : String) : List String → String
  | [] => ""
  | [s] => s
  | s :: rest => s ++ sep ++ joinWith sep rest

/-- Number of element siblings named `nm` in a list
(the `sibling.name == tag_name` counts of `get_css_path` / `get_xpath`;
text siblings have `name is None` and never count). -/
def countSameName (nm : String) (l : List Node) : Nat :=
  l.countP (fun c =>
    match c with
    | .elem n _ _ => n == nm
    | .text _ => false)

/-- The `(tagName, 1-based same-tag ordinal)` segments along a path, root
side first.  Both `get_xpath` (segment `tag[k]`) and `get_css_path` (segment
`tag:nth-of-type(k)`) walk `tag.parents` up to the `'[document]'` root and
render exactly these pairs: `k` is one plus the number of preceding same-name
element siblings. -/
def xpathSegs : Node → List Nat → Option (List (String × Nat))
  | _, [] => some []
  | .elem _ _ cs, i :: p =>
    match cs.get? i with
    | some (.elem nm a ccs) =>
      match xpathSegs (.elem nm a ccs) p with
      | some rest => some ((nm, 1 + countSameName nm (cs.take i)) :: rest)
      | none => none
    | _ => none
  | .text _, _ :: _ => none

/-- The source's `get_xpath(tag)` for the node at position `p`.  The Python loop iterates
over `tag.parents` only — the node's own segment is never emitted — so the
rendered path covers exactly `p.dropLast`.  (For positions that do not
resolve, a case the engine never produces, the segment list defaults to
`[]`.) -/
def get_xpath (root : Node) (p : List Nat) : String :=
  "/" ++ joinWith "/"
    (((xpathSegs root p.dropLast).getD []).map
      (fun s => s.1 ++ "[" ++ toString s.2 ++ "]"))

/-- The source's `get_css_path(tag)` at position `p`: same parents-only walk,
rendered as `tag:nth-of-type(k)` segments joined by `" > "`. -/
def get_css_path (root : Node) (p : List Nat) : String :=
  joinWith " > "
    (((xpathSegs root p.dropLast).getD []).map
      (fun s => s.1 ++ ":nth-of-type(" ++ toString s.2 ++ ")"))

mutual
/-- The source's `generar_huella(tag)`, the structural fingerprint.  For each element
child, emit `child.name` followed by `[childFingerprint]` when the child's
own fingerprint is non-empty; join the parts with `"+"`. -/
def generar_huella : Node → String
  | .text _ => ""
  | .elem _ _ cs => joinWith "+" (huellaParts cs)

/-- The `parts` list of `generar_huella` over a children list (text children
are not Tags and produce no part). -/
def huellaParts : List Node → List String
  | [] => []
  | .text _ :: rest => huellaParts rest
  | .elem nm a cs :: rest =>
    let h := generar_huella (.elem nm a cs)
    (nm ++ (if h = "" then "" else "[" ++ h ++ "]")) :: huellaParts rest
end

mutual
/-- The `tag.descendants` iteration paired with the parent's tag name, in document
(preorder) order: every descendant node (element or text) of a node whose
children list is `cs` and whose own name is the initial `parent`. -/
def descendantsWithParent (parent : String) : List Node → List (Node × String)
  | [] => []
  | .text s :: rest => (.text s, parent) :: descendantsWithParent parent rest
  | .elem nm a cs :: rest =>
    (.elem nm a cs, parent) ::
      (descendantsOf (.elem nm a cs) ++ descendantsWithParent parent rest)

/-- The descendants (with parents) below one node. -/
def descendantsOf : Node → List (Node × String)
  | .text _ => []
  | .elem nm _ cs => descendantsWithParent nm cs
end

/-- The source's `obtener_atributos_descendientes_con_ruta_y_texto(tag)`: enumerate
`tag.descendants` with a running index `i`; for a Tag emit one
`(f"{name}[{i}]", attrName, value)` per attribute, for a non-blank
NavigableString emit `(f"{parentName}_text[{i}]", "text_content",
strippedText)`. -/
def obtener_atributos_descendientes_con_ruta_y_texto (tag : Node) :
    List (String × String × String) :=
  match tag with
  | .text _ => []
  | .elem nm _ cs =>
    ((descendantsWithParent nm cs).enum).flatMap (fun ie =>
      match ie with
      | (i, (.elem dn dattrs _, _)) =>
        dattrs.map (fun kv => (dn ++ "[" ++ toString i ++ "]", kv.1, kv.2))
      | (i, (.text s, pn)) =>
        let clean := pyStrip s
        if clean = "" then []
        else [(pn ++ "_text[" ++ toString i ++ "]", "text_content", clean)])

/-! ### Fingerprint-dominant engine (`app.py`) -/

/-- Module constant `MIN_HIJOS_REQUERIDOS = 3`. -/
def MIN_HIJOS_REQUERIDOS : Nat := 3

/-- Module constant `UMBRAL_FRECUENCIA = 0.6`. -/
def UMBRAL_FRECUENCIA : ℚ := 3 / 5

/-- Python-dict update for string keys: overwrite in place when the key
exists (keeping its original position), otherwise append. -/
def dictInsertStr (d : List (String × String)) (k v : String) :
    List (String × String) :=
  if d.any (fun kv => decide (kv.1 = k)) then
    d.map (fun kv => if kv.1 = k then (kv.1, v) else kv)
  else d ++ [(k, v)]

/-- Python-dict append-to-value-list for `(relative_key, attr_name)` keys,
as built for `mapa_valores_por_clave`. -/
def dictAppendVal (d : List ((String × String) × List String))
    (k : String × String) (v : String) :
    List ((String × String) × List String) :=
  if d.any (fun kv => decide (kv.1 = k)) then
    d.map (fun kv => if kv.1 = k then (kv.1, kv.2 ++ [v]) else kv)
  else d ++ [(k, [v])]

/-- Dict lookup (`d.get(k)`). -/
def lookupStr (d : List (String × String)) (k : String) : Option String :=
  match d.find? (fun kv => decide (kv.1 = k)) with
  | some kv => some kv.2
  | none => none

/-- The `agrupados_por_huella` dict: group the element children by fingerprint,
skipping children whose fingerprint is empty (`if huella:`); dict insertion
order — a group sits at the position of its first member. -/
def addGroup (gs : List (String × List Node)) (h : String) (x : Node) :
    List (String × List Node) :=
  if gs.any (fun g => decide (g.1 = h)) then
    gs.map (fun g => if g.1 = h then (g.1, g.2 ++ [x]) else g)
  else gs ++ [(h, [x])]

/-- The fingerprint grouping loop of `encontrar_contenedores_relevantes`. -/
def groupByHuella (hijos : List Node) : List (String × List Node) :=
  hijos.foldl (fun gs h =>
    let hu := generar_huella h
    if hu = "" then gs else addGroup gs hu h) []

/-- Python `max(items, key=len)`: the first group of maximal size in
iteration order (later groups replace the current best only when strictly
larger). -/
def maxGroup (gs : List (String × List Node)) : Option (String × List Node) :=
  match gs with
  | [] => none
  | g :: rest =>
    some (rest.foldl (fun best cur =>
      if cur.2.length > best.2.length then cur else best) g)

/-- The `mapa_valores_por_clave` dict: over every unit of the dominant group in order,
append each collected value to the list of its `(relative_key, attr_name)`
key. -/
def mapaValoresPorClave (us : List Node) :
    List ((String × String) × List String) :=
  us.foldl (fun m u =>
    (obtener_atributos_descendientes_con_ruta_y_texto u).foldl
      (fun m e => dictAppendVal m (e.1, e.2.1) e.2.2) m) []

/-- The keys promoted to variable: collected-value count equals the dominant
group size and the values are not all identical
(`len(valores) == frecuencia_maxima and len(set(valores)) > 1`). -/
def variableKeysOf (us : List Node) : List (String × String) :=
  (mapaValoresPorClave us).filterMap (fun kv =>
    if kv.2.length = us.length ∧ kv.2.dedup.length > 1 then some kv.1 else none)

/-- The `variable_attrs_final` list: the promoted keys rendered
`f"{relative_key}@{attr_name}"` (the source renders inline in the same
pass; the list is identical). -/
def variableAttrsFinal (us : List Node) : List String :=
  (variableKeysOf us).map (fun k => k.1 ++ "@" ++ k.2)

/-- The `unidad_lookup_map` dict: last write wins per rendered key. -/
def unidadLookup (u : Node) : List (String × String) :=
  (obtener_atributos_descendientes_con_ruta_y_texto u).foldl
    (fun m e => dictInsertStr m (e.1 ++ "@" ++ e.2.1) e.2.2) []

/-- The `instance_data` record for one unit: each variable key, with the unit's value or
the `"N/A (No Encontrado)"` sentinel. -/
def instanceOf (varAttrs : List String) (u : Node) : List (String × String) :=
  let m := unidadLookup u
  varAttrs.map (fun k => (k, (lookupStr m k).getD "N/A (No Encontrado)"))

/-- The container metadata record built by `encontrar_contenedores_relevantes`
(the `resultado` dict).  `pos` records the container's position in the tree
for specification purposes (the source holds the live node instead);
`container_preview`, a prettify-based display string, is the one field not
modelled. -/
structure Resultado where
  pos : List Nat
  container_tag : String
  unit_root_tag : String
  unit_count : Nat
  container_css_path : String
  container_xpath : String
  semantic_variable_attrs : List String
  dominant_huella : String
deriving Repr, DecidableEq

/-- The `instancia_contenedor` record. -/
structure Instancia where
  container_xpath : String
  unit_root_tag : String
  instances : List (List (String × String))
deriving Repr, DecidableEq

/-- One iteration of the `for elemento_padre in soup.find_all(True)` body up
to (but excluding) the xpath-uniqueness filter: `none` on any `continue`
(too few element children, empty grouping, dominance below threshold, no
variable keys). -/
def analyzeElemA (umbral : ℚ) (root : Node) (p : List Nat) :
    Option (Resultado × Instancia) :=
  match getNode root p with
  | some (.elem nm _ cs) =>
    let hijos := elemChildren cs
    if hijos.length < MIN_HIJOS_REQUERIDOS then none
    else
      match maxGroup (groupByHuella hijos) with
      | none => none
      | some (huellaDom, unidades) =>
        let freq := unidades.length
        if (freq : ℚ) / (hijos.length : ℚ) ≥ umbral then
          let varAttrs := variableAttrsFinal unidades
          if varAttrs = [] then none
          else
            let dataInstances := unidades.map (instanceOf varAttrs)
            match unidades with
            | [] => none
            | u0 :: _ =>
              some
                ({ pos := p
                   container_tag := nm
                   unit_root_tag := nodeName u0
                   unit_count := freq
                   container_css_path := get_css_path root p
                   container_xpath := get_xpath root p
                   semantic_variable_attrs := varAttrs
                   dominant_huella := huellaDom },
                 { container_xpath := get_xpath root p
                   unit_root_tag := nodeName u0
                   instances := dataInstances })
        else none
  | _ => none

/-- Accumulator of the main loop: the `xpaths_unicos` set (as the list of
xpaths in first-seen order) and the two output lists. -/
structure AState where
  seen : List String
  res : List Resultado
  inst : List Instancia

/-- One full loop iteration including the xpath-uniqueness filter. -/
def stepA (umbral : ℚ) (root : Node) (st : AState) (p : List Nat) : AState :=
  match analyzeElemA umbral root p with
  | none => st
  | some ri =>
    if st.seen.contains ri.1.container_xpath then st
    else ⟨st.seen ++ [ri.1.container_xpath], st.res ++ [ri.1],
          st.inst ++ [ri.2]⟩

/-- The trailing re-filter of the instance list by container xpath
(`instancias_filtradas`). -/
def dedupInstancias (l : List Instancia) : List Instancia :=
  (l.foldl (fun (acc : List String × List Instancia) i =>
    if acc.1.contains i.container_xpath then acc
    else (acc.1 ++ [i.container_xpath], acc.2 ++ [i])) ([], [])).2

/-- The source's `encontrar_contenedores_relevantes` with the frequency threshold made an
explicit argument (the source reads the module constant
`UMBRAL_FRECUENCIA`). -/
def encontrarConUmbral (umbral : ℚ) (root : Node) :
    List Resultado × List Instancia :=
  let st := (elemPositions root).foldl (stepA umbral root) ⟨[], [], []⟩
  (st.res, dedupInstancias st.inst)

/-- The source's `encontrar_contenedores_relevantes(html_content)` on the parsed tree. -/
def encontrar_contenedores_relevantes (root : Node) :
    List Resultado × List Instancia :=
  encontrarConUmbral UMBRAL_FRECUENCIA root

/-! ### Statistical engine (`semantic_container_detector.py`) -/

mutual
/-- The NavigableString descendants of a node, in document order. -/
def textFragments : Node → List String
  | .text s => [s]
  | .elem _ _ cs => textFragmentsList cs

/-- Text fragments of a children list, in order. -/
def textFragmentsList : List Node → List String
  | [] => []
  | c :: rest => textFragments c ++ textFragmentsList rest
end

/-- bs4 `get_text(" ", strip=True)`: strip each text fragment, drop the blank
ones, join the rest with a single space. -/
def get_text (n : Node) : String :=
  joinWith " " (((textFragments n).map pyStrip).filter (fun s => s ≠ ""))

mutual
/-- The element descendants of a children list, each with the tag-name chain
from (but excluding) the unit root down to (and including) itself — the
reversed `path_parts` walk of `collect_attrs` — in `find_all(recursive=True)`
(preorder) order. -/
def elemDescWithChain (chain : List String) :
    List Node → List (List String × Node)
  | [] => []
  | .text _ :: rest => elemDescWithChain chain rest
  | .elem nm a cs :: rest =>
    (chain ++ [nm], .elem nm a cs) ::
      (elemDescBelow (chain ++ [nm]) (.elem nm a cs) ++
        elemDescWithChain chain rest)

/-- The chained element descendants below one node. -/
def elemDescBelow (chain : List String) : Node → List (List String × Node)
  | .text _ => []
  | .elem _ _ cs => elemDescWithChain chain cs
end

/-- The source's `collect_attrs(unit)`: root attributes as `self::attr`, the unit's
whole text as `self::text` when non-empty, then for every element descendant
its attributes as `relPath::attr` and its text as `relPath::text`.  A Python
dict: later writes to an existing key overwrite in place.  (`path_parts` is
never empty for a strict descendant, so the `else child.name` fallback never
fires.) -/
def collect_attrs (unit : Node) : List (String × String) :=
  match unit with
  | .text _ => []
  | .elem _ uattrs cs =>
    let d0 := uattrs.foldl (fun d kv => dictInsertStr d ("self::" ++ kv.1) kv.2) []
    let t := get_text unit
    let d1 := if t ≠ "" then dictInsertStr d0 "self::text" t else d0
    (elemDescWithChain [] cs).foldl (fun d pcn =>
      let relPath := joinWith "/" pcn.1
      match pcn.2 with
      | .elem _ dattrs _ =>
        let d2 := dattrs.foldl
          (fun d kv => dictInsertStr d (relPath ++ "::" ++ kv.1) kv.2) d
        let txt := get_text pcn.2
        if txt ≠ "" then dictInsertStr d2 (relPath ++ "::text") txt else d2
      | .text _ => d) d1

/-- The per-attribute statistics record built by `analyze_container`. -/
structure AttrStat where
  present : Nat
  present_ratio : ℚ
  unique_values : Nat
  unique_ratio : ℚ
  avg_length : ℚ
  length_var : ℚ
  sample_values : List String
deriving Repr, DecidableEq

/-- Python `statistics.mean` over naturals, as an exact rational. -/
def qmean (l : List Nat) : ℚ :=
  (l.map (fun x => (x : ℚ))).sum / (l.length : ℚ)

/-- Python `statistics.pvariance` (population variance) over naturals, as an exact
rational. -/
def qpvariance (l : List Nat) : ℚ :=
  let m := qmean l
  ((l.map (fun x => ((x : ℚ) - m) ^ 2)).sum) / (l.length : ℚ)

/-- The statistics `analyze_container` computes for one attribute key over
the per-unit attribute dicts `apu` (`n` = number of units). -/
def attrStatOf (apu : List (List (String × String))) (n : Nat) (attr : String) :
    AttrStat :=
  let values := apu.map (fun d => lookupStr d attr)
  let existing := values.filterMap (fun v => v)
  let present := existing.length
  let lengths := existing.map String.length
  { present := present
    present_ratio := (present : ℚ) / (n : ℚ)
    unique_values := if existing = [] then 0 else existing.dedup.length
    unique_ratio :=
      if present ≠ 0 then
        ((if existing = [] then 0 else existing.dedup.length : Nat) : ℚ) /
          (present : ℚ)
      else 0
    avg_length := if existing = [] then 0 else qmean lengths
    length_var :=
      if existing = [] then 0
      else if lengths.length > 1 then qpvariance lengths else 0
    sample_values := existing.take 6 }

/-- The classification branch of `analyze_container` for one attribute's
statistics: appends the key to the shared, variable or noise list. -/
def classifyStep (threshold_shared threshold_variable_presence : ℚ)
    (acc : List String × List String × List String) (ks : String × AttrStat) :
    List String × List String × List String :=
  let s := ks.2
  let p := s.present_ratio
  let u := s.unique_ratio
  let complexity := s.avg_length + s.length_var
  if p ≥ threshold_shared then
    if u < 15 / 100 ∧ complexity < 8 then (acc.1 ++ [ks.1], acc.2.1, acc.2.2)
    else (acc.1, acc.2.1 ++ [ks.1], acc.2.2)
  else if p ≥ threshold_variable_presence then
    if u > 15 / 100 ∨ complexity > 10 then (acc.1, acc.2.1 ++ [ks.1], acc.2.2)
    else (acc.1, acc.2.1, acc.2.2 ++ [ks.1])
  else (acc.1, acc.2.1, acc.2.2 ++ [ks.1])

/-- Stable insertion preserving earlier elements unless `bf x y` says `x`
strictly precedes `y`. -/
def stableInsert (bf : α → α → Bool) (x : α) : List α → List α
  | [] => [x]
  | y :: ys => if bf x y then x :: y :: ys else y :: stableInsert bf x ys

/-- Stable sort (same output as Python's stable `list.sort`): elements in
original order inserted left to right, each placed before the first element
it strictly precedes. -/
def stableSort (bf : α → α → Bool) (l : List α) : List α :=
  l.foldl (fun acc x => stableInsert bf x acc) []

/-- Python `<` on strings: lexicographic on code points. -/
def strLtB (a b : String) : Bool := decide (a < b)

/-- The analysis record returned by `analyze_container`. -/
structure BResult where
  container_tag : String
  unit_root_tag : String
  unit_count : Nat
  shared_attrs : List String
  semantic_variable_attrs : List String
  noise_attrs : List String
  attr_stats : List (String × AttrStat)
deriving Repr, DecidableEq

/-- The source's `analyze_container(container, min_units, threshold_shared,
threshold_variable_presence)`.  Python iterates the key set in unspecified
hash order; the three classification lists are sorted afterwards and
`attr_stats` is consumed key-wise, so first-appearance order is fixed
here. -/
def analyze_container (container : Node) (min_units : Nat)
    (threshold_shared threshold_variable_presence : ℚ) : Option BResult :=
  match container with
  | .text _ => none
  | .elem cnm _ ccs =>
    let units := elemChildren ccs
    if units.length < min_units then none
    else
      let apu := units.map collect_attrs
      let allKeys := (apu.flatMap (fun d => d.map (fun kv => kv.1))).dedup
      let n := units.length
      let stats := allKeys.map (fun a => (a, attrStatOf apu n a))
      let cls := stats.foldl
        (classifyStep threshold_shared threshold_variable_presence)
        ([], [], [])
      some
        { container_tag := cnm
          unit_root_tag := match units with | u :: _ => nodeName u | [] => ""
          unit_count := n
          shared_attrs := stableSort strLtB cls.1
          semantic_variable_attrs := stableSort strLtB cls.2.1
          noise_attrs := stableSort strLtB cls.2.2
          attr_stats := stats }

/-- The source's `es_contenedor_valido(elem, min_units, max_child_tag_variation)`. -/
def es_contenedor_valido (e : Node) (min_units max_child_tag_variation : Nat) :
    Bool :=
  match e with
  | .text _ => false
  | .elem _ _ cs =>
    let hijos := elemChildren cs
    if hijos.length < min_units then false
    else if (hijos.map nodeName).dedup.length > max_child_tag_variation
        && hijos.length < 6 then false
    else true

/-- The default `container_tags` list. -/
def containerTagsDefault : List String :=
  ["div", "span", "section", "article", "ul", "ol"]

/-- All strict-ancestor positions of `p` (every proper path, including
the document root `[]`), the chain the `while parent is not None` walk of
`candidate_containers` visits. -/
def ancestorPaths (p : List Nat) : List (List Nat) :=
  (List.range p.length).map (fun k => p.take k)

/-- The `is_nested` check: some strict ancestor is (bs4-value-)equal to a
member of the valid candidate list. -/
def isNestedB (root : Node) (vals : List Node) (p : List Nat) : Bool :=
  (ancestorPaths p).any (fun a =>
    match getNode root a with
    | some v => vals.any (fun w => beqNode w v)
    | none => false)

/-- The `valids` list of `candidate_containers`: positions of elements with
a default container tag (`raw`, document order) that pass
`es_contenedor_valido`. -/
def validCandidates (root : Node) (min_units : Nat) : List (List Nat) :=
  ((elemPositions root).filter (fun p =>
    match getNode root p with
    | some n => containerTagsDefault.contains (nodeName n)
    | none => false)).filter (fun p =>
    match getNode root p with
    | some n => es_contenedor_valido n min_units 3
    | none => false)

/-- The positions `candidate_containers(soup, None, min_units)` keeps: the
valid candidates with no valid candidate among their ancestors. -/
def candidate_containers (root : Node) (min_units : Nat) : List (List Nat) :=
  let valids := validCandidates root min_units
  let validVals := valids.filterMap (getNode root)
  valids.filter (fun c => ! isNestedB root validVals c)

/-- The ranking key of `analyze_html_all`:
`(unit_count, len(semantic_variable_attrs), len(shared_attrs))`. -/
def bKey (r : BResult) : Nat × Nat × Nat :=
  (r.unit_count, r.semantic_variable_attrs.length, r.shared_attrs.length)

/-- Strict lexicographic order on the ranking triples. -/
def tripleLt (x y : Nat × Nat × Nat) : Bool :=
  decide (x.1 < y.1) ||
    (decide (x.1 = y.1) &&
      (decide (x.2.1 < y.2.1) ||
        (decide (x.2.1 = y.2.1) && decide (x.2.2 < y.2.2))))

/-- The source's `analyze_html_all(html, min_units)` on the parsed tree: analyze every
surviving candidate, then `results.sort(key=..., reverse=True)` — a stable
descending sort on the ranking triple. -/
def analyze_html_all (root : Node) (min_units : Nat) : List BResult :=
  let containers := candidate_containers root min_units
  let results := containers.filterMap (fun p =>
    match getNode root p with
    | some c => analyze_container c min_units (95 / 100) (3 / 10)
    | none => none)
  stableSort (fun a b => tripleLt (bKey b) (bKey a)) results

/-! ### Concrete documents used as witnesses and counterexamples -/

/-- An `<a href=h>` element. -/
def aHref (h : String) : Node := .elem "a" [("href", h)] []

/-- A `<li><a href=h></a></li>` row. -/
def liaHref (h : String) : Node := .elem "li" [] [aHref h]

/-- An `<ul>` of three `<li><a href=kM>` items. -/
def ulOf (k : String) : Node :=
  .elem "ul" [] [liaHref (k ++ "1"), liaHref (k ++ "2"), liaHref (k ++ "3")]

/-- A document with two sibling `<li>` items (distinct nodes, same parent). -/
def docC1 : Node :=
  .elem "[document]" []
    [.elem "html" []
      [.elem "body" []
        [.elem "ul" [] [.elem "li" [] [.text "A"], .elem "li" [] [.text "B"]]]]]

/-- A `<div>` of three structurally identical `<ul>` lists, each of three
`<li><a href>` rows with varying hrefs: the div and each ul are all
acceptable repeating containers, the uls strictly nested in the div. -/
def docC2 : Node :=
  .elem "[document]" []
    [.elem "html" []
      [.elem "body" []
        [.elem "div" [] [ulOf "u1", ulOf "u2", ulOf "u3"]]]]

/-- A `<div>` of seven identical `<i a="x">` children: no varying signal at
all (every field is boilerplate). -/
def docC3 : Node :=
  .elem "[document]" []
    [.elem "div" [] (List.replicate 7 (.elem "i" [("a", "x")] []))]

/-- Three `<li>text</li>` leaf children (no element grandchildren, varying
text). -/
def div7Children : List Node :=
  [.elem "li" [] [.text "t1"], .elem "li" [] [.text "t2"],
   .elem "li" [] [.text "t3"]]

/-- A `<div>` whose element children are all leaves. -/
def docC7 : Node :=
  .elem "[document]" []
    [.elem "html" [] [.elem "body" [] [.elem "div" [] div7Children]]]

/-- Five children, three of them fingerprint-equal `<li><a>` rows: dominant
share exactly 3/5. -/
def div8aChildren : List Node :=
  [liaHref "a1", liaHref "a2", liaHref "a3",
   .elem "p" [] [.elem "b" [] []], .elem "p" [] [.elem "i" [] []]]

/-- Three fingerprint-equal `<li><a>` rows: dominant share 1. -/
def div8bChildren : List Node :=
  [liaHref "b1", liaHref "b2", liaHref "b3"]

/-- Two sibling `<div>` containers under `<body>`: the first with dominant
share exactly 3/5, the second with share 1. -/
def docC8 : Node :=
  .elem "[document]" []
    [.elem "html" []
      [.elem "body" []
        [.elem "div" [] div8aChildren, .elem "div" [] div8bChildren]]]

/-- A 3-unit container appearing in document order before a 4-unit
container (wrapped so their xpaths differ). -/
def docC9 : Node :=
  .elem "[document]" []
    [.elem "html" []
      [.elem "body" []
        [.elem "section" []
          [.elem "div" [] [liaHref "a1", liaHref "a2", liaHref "a3"]],
         .elem "article" []
          [.elem "div" []
            [liaHref "b1", liaHref "b2", liaHref "b3", liaHref "b4"]]]]]

/-! ### Specification-side helper definitions -/

/-- First-match lookup in the values dict (`mapa_valores_por_clave[k]`);
the dict never holds duplicate keys, so first-match is dict lookup. -/
def lookupVals (m : List ((String × String) × List String))
    (k : String × String) : List String :=
  match m with
  | [] => []
  | kv :: rest => if kv.1 = k then kv.2 else lookupVals rest k

/-- The value list the engine collects for key `k` over the dominant group:
unit by unit in order, every matching entry's value. -/
def collectedValues (us : List Node) (k : String × String) : List String :=
  us.flatMap (fun u =>
    ((obtener_atributos_descendientes_con_ruta_y_texto u).filter
      (fun e => decide ((e.1, e.2.1) = k))).map (fun e => e.2.2))

/-- The `(relative_key, attr_name)` FieldKeys of one unit's collected
entries. -/
def unitKeys (u : Node) : List (String × String) :=
  (obtener_atributos_descendientes_con_ruta_y_texto u).map
    (fun e => (e.1, e.2.1))

/-! ### Tag-shape (specification side, for the fingerprint claims) -/

/-- The tag-shape of an element subtree: its tag name and the shapes of its
element children, ignoring attributes and text. -/
inductive Shape where
  | node (name : String) (children : List Shape)

mutual
/-- Tag-shape of a node (text nodes carry no shape and only occur under an
`isElem` guard). -/
def shapeOf : Node → Shape
  | .text _ => .node "" []
  | .elem nm _ cs => .node nm (shapeForest cs)

/-- Shapes of the element children of a children list. -/
def shapeForest : List Node → List Shape
  | [] => []
  | .text _ :: rest => shapeForest rest
  | .elem nm a cs :: rest => shapeOf (.elem nm a cs) :: shapeForest rest
end

/-- The element-children shape forest below a node: exactly the information
`generar_huella` serializes. -/
def childForest : Node → List Shape
  | .text _ => []
  | .elem _ _ cs => shapeForest cs

/-- The three punctuation characters of `generar_huella`. -/
def specialChar (c : Char) : Bool := c == '+' || c == '[' || c == ']'

mutual
/-- Serialization of one shape, at character level, as `generar_huella`
renders it. -/
def encItem : Shape → List Char
  | .node nm cs =>
    nm.data ++ (if encSeq cs = [] then [] else '[' :: (encSeq cs ++ [']']))

/-- Serialization of a shape forest ("+"-joined), as `generar_huella`
renders it. -/
def encSeq : List Shape → List Char
  | [] => []
  | [sh] => encItem sh
  | sh :: rest => encItem sh ++ '+' :: encSeq rest
end

/-- The tail of a "+"-joined serialization after its first item. -/
def encTail : List Shape → List Char
  | [] => []
  | sh :: rest => '+' :: encSeq (sh :: rest)

mutual
/-- Parser-legal shape: every tag name non-empty and free of the three
punctuation characters (true of every name lxml can produce). -/
def okShapeB : Shape → Bool
  | .node nm cs =>
    (!(nm == "")) && nm.data.all (fun c => !(specialChar c)) && okForestB cs

/-- Parser-legal forest. -/
def okForestB : List Shape → Bool
  | [] => true
  | sh :: rest => okShapeB sh && okForestB rest
end

mutual
/-- Parser-legal subtree: every element name in it is non-empty and free of
`generar_huella`'s punctuation. -/
def okNodeB : Node → Bool
  | .text _ => true
  | .elem nm _ cs =>
    (!(nm == "")) && nm.data.all (fun c => !(specialChar c)) && okListB cs

/-- Parser-legal children list. -/
def okListB : List Node → Bool
  | [] => true
  | c :: rest => okNodeB c && okListB rest
end

mutual
/-- Size measure for induction over shapes. -/
def shapeSize : Shape → Nat
  | .node _ cs => 1 + shapeListSize cs

/-- Size measure for shape forests. -/
def shapeListSize : List Shape → Nat
  | [] => 0
  | sh :: rest => shapeSize sh + shapeListSize rest
end

/-- A legal continuation after a forest serialization: nothing (top level)
or a closing bracket (inside a bracket) — the only contexts
`generar_huella` produces. -/
def okSeqRest : List Char → Prop
  | [] => True
  | c :: _ => c = ']'

/-- A continuation starting (if at all) with punctuation. -/
def headSpecialP : List Char → Prop
  | [] => True
  | c :: _ => specialChar c = true

/-- Character-level "+"-join, to relate `joinWith "+"` to `encSeq`. -/
def joinCharPlus : List (List Char) → List Char
  | [] => []
  | [x] => x
  | x :: rest => x ++ '+' :: joinCharPlus rest

/-! ### Shared lemmas about the fingerprint-dominant engine -/

/-- What is true of every `Resultado` the main loop emits: its position
resolves to an element whose child analysis passed every `continue` guard. -/
def AcceptedA (umbral : ℚ) (root : Node) (r : Resultado) : Prop :=
  ∃ nm attrs cs, getNode root r.pos = some (.elem nm attrs cs) ∧
    ¬ (elemChildren cs).length < MIN_HIJOS_REQUERIDOS ∧
    ∃ hd us, maxGroup (groupByHuella (elemChildren cs)) = some (hd, us) ∧
      (us.length : ℚ) / ((elemChildren cs).length : ℚ) ≥ umbral ∧
      r.semantic_variable_attrs = variableAttrsFinal us ∧
      variableAttrsFinal us ≠ [] ∧
      r.unit_count = us.length

theorem analyzeElemA_spec {umbral : ℚ} {root : Node} {p : List Nat}
    {ri : Resultado × Instancia}
    (h : analyzeElemA umbral root p = some ri) :
    ri.1.pos = p ∧ AcceptedA umbral root ri.1 := by
  unfold analyzeElemA at h
  cases hg : getNode root p with
  | none => rw [hg] at h; exact absurd h (by simp)
  | some n =>
    cases n with
    | text s => rw [hg] at h; exact absurd h (by simp)
    | elem nm attrs cs =>
      rw [hg] at h
      simp only at h
      by_cases hlen : (elemChildren cs).length < MIN_HIJOS_REQUERIDOS
      · rw [if_pos hlen] at h; exact absurd h (by simp)
      · rw [if_neg hlen] at h
        cases hmax : maxGroup (groupByHuella (elemChildren cs)) with
        | none => rw [hmax] at h; exact absurd h (by simp)
        | some g =>
          rw [hmax] at h
          obtain ⟨hd, us⟩ := g
          simp only at h
          by_cases hfreq :
              (us.length : ℚ) / ((elemChildren cs).length : ℚ) ≥ umbral
          · rw [if_pos hfreq] at h
            by_cases hvar : variableAttrsFinal us = []
            · rw [if_pos hvar] at h; exact absurd h (by simp)
            · rw [if_neg hvar] at h
              cases us with
              | nil => exact absurd h (by simp)
              | cons u0 urest =>
                simp only [Option.some.injEq] at h
                subst h
                refine ⟨rfl, nm, attrs, cs, hg, hlen, hd, u0 :: urest,
                  hmax, hfreq, rfl, hvar, rfl⟩
          · rw [if_neg hfreq] at h; exact absurd h (by simp)

theorem mem_res_foldA {umbral : ℚ} {root : Node} {r : Resultado} :
    ∀ (ps : List (List Nat)) (st : AState),
      r ∈ (ps.foldl (stepA umbral root) st).res →
      r ∈ st.res ∨ ∃ p ∈ ps, ∃ ri : Resultado × Instancia,
        analyzeElemA umbral root p = some ri ∧ ri.1 = r := by
  intro ps
  induction ps with
  | nil => intro st h; exact Or.inl h
  | cons p ps ih =>
    intro st h
    rcases ih _ h with h' | ⟨q, hq, ri, hri, hrr⟩
    · unfold stepA at h'
      cases ha : analyzeElemA umbral root p with
      | none => rw [ha] at h'; exact Or.inl h'
      | some ri =>
        rw [ha] at h'
        dsimp only at h'
        by_cases hseen : st.seen.contains ri.1.container_xpath
        · rw [if_pos hseen] at h'; exact Or.inl h'
        · rw [if_neg hseen] at h'
          simp only [List.mem_append, List.mem_singleton] at h'
          rcases h' with h'' | rfl
          · exact Or.inl h''
          · exact Or.inr ⟨p, List.mem_cons_self _ _, ri, ha, rfl⟩
    · exact Or.inr ⟨q, List.mem_cons_of_mem _ hq, ri, hri, hrr⟩

/-- Every result the fingerprint-dominant engine returns passed all the
guards of the loop body. -/
theorem mem_encontrar_accepted {umbral : ℚ} {root : Node} {r : Resultado}
    (h : r ∈ (encontrarConUmbral umbral root).1) :
    AcceptedA umbral root r := by
  have := @mem_res_foldA umbral root r (elemPositions root) ⟨[], [], []⟩ h
  rcases this with h' | ⟨p, _, ri, hri, hrr⟩
  · exact absurd h' (by simp)
  · obtain ⟨hpos, hacc⟩ := analyzeElemA_spec hri
    rw [hrr] at hacc
    exact hacc

/-- Children whose fingerprint is empty are never placed in any group. -/
theorem groupByHuella_members :
    ∀ (hijos : List Node) (g : String × List Node),
      g ∈ groupByHuella hijos →
      g.1 ≠ "" ∧ ∀ x ∈ g.2, generar_huella x = g.1 := by
  have key : ∀ (hijos : List Node) (gs : List (String × List Node)),
      (∀ g ∈ gs, g.1 ≠ "" ∧ ∀ x ∈ g.2, generar_huella x = g.1) →
      ∀ g ∈ hijos.foldl (fun gs h =>
        let hu := generar_huella h
        if hu = "" then gs else addGroup gs hu h) gs,
        g.1 ≠ "" ∧ ∀ x ∈ g.2, generar_huella x = g.1 := by
    intro hijos
    induction hijos with
    | nil => intro gs hgs g hg; exact hgs g hg
    | cons hijo rest ih =>
      intro gs hgs
      simp only [List.foldl_cons]
      by_cases hhu : generar_huella hijo = ""
      · rw [if_pos hhu]; exact ih gs hgs
      · rw [if_neg hhu]
        apply ih
        intro g hg
        unfold addGroup at hg
        by_cases hexists : gs.any (fun g => decide (g.1 = generar_huella hijo))
        · rw [if_pos hexists] at hg
          simp only [List.mem_map] at hg
          obtain ⟨g0, hg0, hg0eq⟩ := hg
          by_cases hkey : g0.1 = generar_huella hijo
          · rw [if_pos hkey] at hg0eq
            subst hg0eq
            refine ⟨?_, ?_⟩
            · exact (hgs g0 hg0).1
            · intro x hx
              simp only [List.mem_append, List.mem_singleton] at hx
              rcases hx with hx | rfl
              · exact (hgs g0 hg0).2 x hx
              · exact hkey.symm
          · rw [if_neg hkey] at hg0eq
            subst hg0eq
            exact hgs g0 hg0
        · rw [if_neg hexists] at hg
          simp only [List.mem_append, List.mem_singleton] at hg
          rcases hg with hg | rfl
          · exact hgs g hg
          · exact ⟨hhu, by
              intro x hx
              simp only [List.mem_singleton] at hx
              subst hx
              rfl⟩
  intro hijos g hg
  exact key hijos [] (by simp) g hg

/-- If every element child has an empty fingerprint the grouping is empty. -/
theorem groupByHuella_eq_nil {hijos : List Node}
    (h : ∀ x ∈ hijos, generar_huella x = "") :
    groupByHuella hijos = [] := by
  unfold groupByHuella
  induction hijos with
  | nil => rfl
  | cons hijo rest ih =>
    simp only [List.foldl_cons]
    rw [if_pos (h hijo (List.mem_cons_self _ _))]
    exact ih (fun x hx => h x (List.mem_cons_of_mem _ hx))

mutual
/-- bs4 value equality is reflexive. -/
theorem beqNode_refl : ∀ n : Node, beqNode n n = true
  | .text s => by simp [beqNode]
  | .elem nm a cs => by simp [beqNode, beqNodeList_refl cs]

/-- Pointwise bs4 value equality is reflexive. -/
theorem beqNodeList_refl : ∀ l : List Node, beqNodeList l l = true
  | [] => by simp [beqNodeList]
  | x :: xs => by simp [beqNodeList, beqNode_refl x, beqNodeList_refl xs]
end

/-! ### Shared lemmas about the stable sort -/

theorem mem_stableInsert {α : Type} {bf : α → α → Bool} {x y : α} :
    ∀ {l : List α}, y ∈ stableInsert bf x l ↔ y = x ∨ y ∈ l := by
  intro l
  induction l with
  | nil => simp [stableInsert]
  | cons z zs ih =>
    unfold stableInsert
    split
    · simp only [List.mem_cons]
    · simp only [List.mem_cons, ih]
      tauto

theorem mem_stableSort {α : Type} {bf : α → α → Bool} {y : α} :
    ∀ {l : List α}, y ∈ stableSort bf l ↔ y ∈ l := by
  have key : ∀ (l acc : List α),
      y ∈ l.foldl (fun acc x => stableInsert bf x acc) acc ↔
        y ∈ acc ∨ y ∈ l := by
    intro l
    induction l with
    | nil => intro acc; simp
    | cons x xs ih =>
      intro acc
      simp only [List.foldl_cons, ih, mem_stableInsert, List.mem_cons]
      tauto
  intro l
  unfold stableSort
  rw [key]
  simp

/-! ### Claim C1 -/

/-- Claim C1 counterexample: the two sibling `<li>` nodes of `docC1` are
distinct nodes of one document, yet `get_xpath` computes the same XPath-style
address for both, and `get_css_path` the same CSS-style path — the addresses
walk `tag.parents` only and never include the node's own segment. -/
theorem c1_counterexample :
    ([0, 0, 0, 0] : List Nat) ≠ [0, 0, 0, 1] ∧
    getNode docC1 [0, 0, 0, 0] = some (.elem "li" [] [.text "A"]) ∧
    getNode docC1 [0, 0, 0, 1] = some (.elem "li" [] [.text "B"]) ∧
    get_xpath docC1 [0, 0, 0, 0] = get_xpath docC1 [0, 0, 0, 1] ∧
    get_css_path docC1 [0, 0, 0, 0] = get_css_path docC1 [0, 0, 0, 1] :=
  ⟨by decide, rfl, rfl, rfl, rfl⟩

/-- The same-name ordinal of a child determines its index: two element
children with the same tag name and the same count of preceding same-name
siblings are one and the same child. -/
theorem countSameName_index_inj {cs : List Node} {i j : Nat} {nm : String}
    {a a' : List (String × String)} {c c' : List Node}
    (hi : cs.get? i = some (.elem nm a c))
    (hj : cs.get? j = some (.elem nm a' c'))
    (hcount : countSameName nm (cs.take i) = countSameName nm (cs.take j)) :
    i = j := by
  have key : ∀ {i j : Nat} {a a' : List (String × String)} {c c' : List Node},
      cs.get? i = some (.elem nm a c) → cs.get? j = some (.elem nm a' c') →
      i < j →
      countSameName nm (cs.take i) < countSameName nm (cs.take j) := by
    intro i j a a' c c' hi hj hij
    have hstep : countSameName nm (cs.take (i + 1)) =
        countSameName nm (cs.take i) + 1 := by
      unfold countSameName
      rw [List.take_succ, List.countP_append]
      rw [← List.get?_eq_getElem?, hi]
      simp
    have hmono : countSameName nm (cs.take (i + 1)) ≤
        countSameName nm (cs.take j) := by
      unfold countSameName
      apply List.Sublist.countP_le
      have h1 : cs.take (i + 1) = (cs.take j).take (i + 1) := by
        rw [List.take_take]
        congr 1
        omega
      rw [h1]
      exact List.take_sublist _ _
    omega
  rcases Nat.lt_trichotomy i j with h | h | h
  · exact absurd hcount (Nat.ne_of_lt (key hi hj h))
  · exact h
  · exact absurd hcount.symm (Nat.ne_of_lt (key hj hi h))

/-- The `(tagName, ordinal)` segment chain identifies the path: two paths of
one document with the same resolved segment list are equal. -/
theorem xpathSegs_inj :
    ∀ (p : List Nat) (root : Node) (q : List Nat) (l : List (String × Nat)),
      xpathSegs root p = some l → xpathSegs root q = some l → p = q := by
  intro p
  induction p with
  | nil =>
    intro root q l hp hq
    have hl : l = [] := by
      unfold xpathSegs at hp
      cases root <;> simpa using hp.symm
    subst hl
    cases q with
    | nil => rfl
    | cons j q' =>
      exfalso
      unfold xpathSegs at hq
      cases root with
      | text s => exact absurd hq (by simp)
      | elem nm0 a0 cs =>
        dsimp only at hq
        cases hgj : cs.get? j with
        | none => rw [hgj] at hq; exact absurd hq (by simp)
        | some cj =>
          rw [hgj] at hq
          cases cj with
          | text s => exact absurd hq (by simp)
          | elem nmj aj csj =>
            dsimp only at hq
            cases hrest : xpathSegs (.elem nmj aj csj) q' with
            | none => rw [hrest] at hq; exact absurd hq (by simp)
            | some lj => rw [hrest] at hq; exact absurd hq (by simp)
  | cons i p' ih =>
    intro root q l hp hq
    cases root with
    | text s => exact absurd hp (by simp [xpathSegs])
    | elem nm0 a0 cs =>
      unfold xpathSegs at hp
      cases hgi : cs.get? i with
      | none => rw [hgi] at hp; exact absurd hp (by simp)
      | some ci =>
        rw [hgi] at hp
        cases ci with
        | text s => exact absurd hp (by simp)
        | elem nmi ai csi =>
          dsimp only at hp
          cases hresti : xpathSegs (.elem nmi ai csi) p' with
          | none => rw [hresti] at hp; exact absurd hp (by simp)
          | some li =>
            rw [hresti] at hp
            simp only [Option.some.injEq] at hp
            cases q with
            | nil =>
              exfalso
              unfold xpathSegs at hq
              simp only [Option.some.injEq] at hq
              rw [← hq] at hp
              cases hp
            | cons j q' =>
              unfold xpathSegs at hq
              cases hgj : cs.get? j with
              | none => rw [hgj] at hq; exact absurd hq (by simp)
              | some cj =>
                rw [hgj] at hq
                cases cj with
                | text s => exact absurd hq (by simp)
                | elem nmj aj csj =>
                  dsimp only at hq
                  cases hrestj : xpathSegs (.elem nmj aj csj) q' with
                  | none => rw [hrestj] at hq; exact absurd hq (by simp)
                  | some lj =>
                    rw [hrestj] at hq
                    simp only [Option.some.injEq] at hq
                    rw [← hq] at hp
                    have hseg := List.head_eq_of_cons_eq hp
                    have htail := List.tail_eq_of_cons_eq hp
                    have hnm : nmi = nmj := congrArg Prod.fst hseg
                    subst hnm
                    have hcnt : countSameName nmi (cs.take i) =
                        countSameName nmi (cs.take j) := by
                      have := congrArg Prod.snd hseg
                      simpa using this
                    have hij : i = j := countSameName_index_inj hgi hgj hcnt
                    subst hij
                    rw [hgi] at hgj
                    obtain ⟨rfl, rfl⟩ :
                        ai = aj ∧ csi = csj := by
                      cases hgj; exact ⟨rfl, rfl⟩
                    have := ih (.elem nmi ai csi) q' li hresti
                      (htail ▸ hrestj)
                    rw [this]

/-- Claim C1 (amended): the computed addresses identify only the node's
parent chain: any two siblings (positions `p ++ [i]` and `p ++ [j]`) always
share both the XPath-style and the CSS-style address, while the underlying
`(tag, ordinal)` segment chains are injective over paths — so two nodes get
the same address exactly when they hang under the same parent. -/
theorem c1_address_is_parent_address :
    (∀ (root : Node) (p : List Nat) (i j : Nat),
      get_xpath root (p ++ [i]) = get_xpath root (p ++ [j]) ∧
      get_css_path root (p ++ [i]) = get_css_path root (p ++ [j])) ∧
    (∀ (root : Node) (p q : List Nat) (l : List (String × Nat)),
      xpathSegs root p = some l → xpathSegs root q = some l → p = q) := by
  constructor
  · intro root p i j
    constructor
    · unfold get_xpath
      rw [List.dropLast_concat, List.dropLast_concat]
    · unfold get_css_path
      rw [List.dropLast_concat, List.dropLast_concat]
  · exact fun root p q l hp hq => xpathSegs_inj p root q l hp hq

/-- Claim C1 witness: the two `<li>` siblings of `docC1` share their
addresses, and the segment-chain injectivity applied to concrete resolved
chains. -/
theorem c1_address_is_parent_address_witness :
    get_xpath docC1 ([0, 0, 0] ++ [0]) = get_xpath docC1 ([0, 0, 0] ++ [1]) ∧
    ([0, 0] : List Nat) = [0, 0] :=
  ⟨(c1_address_is_parent_address.1 docC1 [0, 0, 0] 0 1).1,
   c1_address_is_parent_address.2 docC1 [0, 0] [0, 0]
     [("html", 1), ("body", 1)] rfl rfl⟩

/-! ### Claim C2 -/

/-- Claim C2 counterexample: on `docC2` the fingerprint-dominant engine
reports the outer `<div>` (position `[0,0,0]`) and also the first `<ul>`
strictly nested inside it (position `[0,0,0] ++ [0]`): `app.py` performs no
ancestor-based suppression of nested candidates. -/
theorem c2_counterexample :
    [0, 0, 0] ∈ (encontrar_contenedores_relevantes docC2).1.map
      (fun r => r.pos) ∧
    [0, 0, 0] ++ [0] ∈ (encontrar_contenedores_relevantes docC2).1.map
      (fun r => r.pos) := by
  decide

/-- Claim C2 (amended): the statistical engine does suppress nested
candidates — whenever a position `p` is a valid container candidate, no
strict descendant of `p` survives into `candidate_containers`' result.  (The
fingerprint-dominant engine, by `c2_counterexample`, does not suppress by
ancestry.) -/
theorem c2_detector_suppresses_nested :
    ∀ (root : Node) (min_units : Nat) (p s : List Nat),
      s ≠ [] →
      p ∈ validCandidates root min_units →
      p ++ s ∉ candidate_containers root min_units := by
  intro root mu p s hs hp hq
  unfold candidate_containers at hq
  rw [List.mem_filter] at hq
  obtain ⟨hqv, hqn⟩ := hq
  have hget : ∃ n, getNode root p = some n := by
    unfold validCandidates at hp
    rw [List.mem_filter] at hp
    obtain ⟨_, hcond⟩ := hp
    cases hg : getNode root p with
    | none => rw [hg] at hcond; exact absurd hcond (by simp)
    | some n => exact ⟨n, rfl⟩
  obtain ⟨v, hv⟩ := hget
  have hnested : isNestedB root
      ((validCandidates root mu).filterMap (getNode root)) (p ++ s) = true := by
    unfold isNestedB
    rw [List.any_eq_true]
    refine ⟨p, ?_, ?_⟩
    · unfold ancestorPaths
      rw [List.mem_map]
      refine ⟨p.length, ?_, List.take_left p s⟩
      rw [List.mem_range, List.length_append]
      have : 0 < s.length := List.length_pos.mpr hs
      omega
    · rw [hv]
      rw [List.any_eq_true]
      exact ⟨v, List.mem_filterMap.mpr ⟨p, hp, hv⟩, beqNode_refl v⟩
  rw [hnested] at hqn
  exact absurd hqn (by simp)

/-- Claim C2 witness: on `docC2` the `<ul>` at `[0,0,0] ++ [0]`, though a
valid candidate itself, is suppressed because the `<div>` at `[0,0,0]` is a
valid candidate. -/
theorem c2_detector_suppresses_nested_witness :
    [0, 0, 0] ++ [0] ∉ candidate_containers docC2 2 :=
  c2_detector_suppresses_nested docC2 2 [0, 0, 0] [0] (by decide) (by decide)

/-! ### Claim C3 -/

/-- Claim C3 counterexample: on `docC3` (a `<div>` of seven verbatim-equal
children) the statistical engine returns one result whose
`semantic_variable_attrs` is empty, instead of excluding the container. -/
theorem c3_counterexample :
    (analyze_html_all docC3 2).map (fun r => r.semantic_variable_attrs)
      = [[]] := by
  rfl

/-- Claim C3 (amended): the fingerprint-dominant engine excludes every
container whose classification leaves zero variable FieldKeys (each reported
result has a non-empty variable list); the statistical engine does not — it
keeps every analyzed candidate's result, with an empty
`semantic_variable_attrs` list when nothing varies. -/
theorem c3_no_signal_discard :
    (∀ (umbral : ℚ) (root : Node) (r : Resultado),
      r ∈ (encontrarConUmbral umbral root).1 →
      r.semantic_variable_attrs ≠ []) ∧
    (∀ (root : Node) (min_units : Nat) (p : List Nat) (c : Node) (r : BResult),
      p ∈ candidate_containers root min_units →
      getNode root p = some c →
      analyze_container c min_units (95 / 100) (3 / 10) = some r →
      r ∈ analyze_html_all root min_units) := by
  constructor
  · intro umbral root r hr
    obtain ⟨nm, attrs, cs, _, _, hd, us, _, _, hvar_eq, hvar_ne, _⟩ :=
      mem_encontrar_accepted hr
    rw [hvar_eq]
    exact hvar_ne
  · intro root mu p c r hp hg ha
    unfold analyze_html_all
    rw [mem_stableSort]
    exact List.mem_filterMap.mpr ⟨p, hp, by rw [hg]; exact ha⟩

/-- Claim C3 witness: a concrete accepted container of the fingerprint
engine has non-empty variable attrs, and the zero-variable analysis of
`docC3`'s `<div>` is (still) a member of the statistical engine's output. -/
theorem c3_no_signal_discard_witness :
    ({ pos := [0, 0, 0], container_tag := "div", unit_root_tag := "li",
       unit_count := 3,
       container_css_path := "html:nth-of-type(1) > body:nth-of-type(1)",
       container_xpath := "/html[1]/body[1]",
       semantic_variable_attrs := ["a[0]@href"],
       dominant_huella := "a" } : Resultado).semantic_variable_attrs ≠ [] ∧
    ({ container_tag := "div", unit_root_tag := "i", unit_count := 7,
       shared_attrs := ["self::a"], semantic_variable_attrs := [],
       noise_attrs := [],
       attr_stats := [("self::a",
         { present := 7, present_ratio := 1, unique_values := 1,
           unique_ratio := 1 / 7, avg_length := 1, length_var := 0,
           sample_values := ["x", "x", "x", "x", "x", "x"] })] } : BResult)
      ∈ analyze_html_all docC3 2 :=
  ⟨c3_no_signal_discard.1 UMBRAL_FRECUENCIA docC8 _ (by decide),
   c3_no_signal_discard.2 docC3 2 [0]
     (.elem "div" [] (List.replicate 7 (.elem "i" [("a", "x")] []))) _
     (by decide) rfl rfl⟩

/-! ### Claim C7 -/

/-- Claim C7: a child with an empty structural fingerprint is never placed
in any fingerprint group, and a container all of whose element children have
empty fingerprints (leaf elements like `<li>text</li>`) is never reported by
the fingerprint-dominant engine, whatever its children's text or
attributes. -/
theorem c7_leaf_children_never_reported :
    (∀ (hijos : List Node) (g : String × List Node) (x : Node),
      g ∈ groupByHuella hijos → x ∈ g.2 → generar_huella x ≠ "") ∧
    (∀ (root : Node) (p : List Nat) (nm : String)
      (attrs : List (String × String)) (cs : List Node),
      getNode root p = some (.elem nm attrs cs) →
      (∀ h ∈ elemChildren cs, generar_huella h = "") →
      p ∉ (encontrar_contenedores_relevantes root).1.map (fun r => r.pos)) := by
  constructor
  · intro hijos g x hg hx
    have h := groupByHuella_members hijos g hg
    rw [h.2 x hx]
    exact h.1
  · intro root p nm attrs cs hg hleaf hmem
    simp only [List.mem_map] at hmem
    obtain ⟨r, hr, hrp⟩ := hmem
    obtain ⟨nm', attrs', cs', hg', _, hd', us', hmax', _, _, _, _⟩ :=
      mem_encontrar_accepted hr
    rw [hrp, hg] at hg'
    obtain ⟨rfl, rfl, rfl⟩ : nm = nm' ∧ attrs = attrs' ∧ cs = cs' := by
      cases hg'
      exact ⟨rfl, rfl, rfl⟩
    rw [groupByHuella_eq_nil hleaf] at hmax'
    exact absurd hmax' (by simp [maxGroup])

/-- Claim C7 witness: `docC7`'s `<div>` of three `<li>text</li>` children is
not reported. -/
theorem c7_leaf_children_never_reported_witness :
    [0, 0, 0] ∉ (encontrar_contenedores_relevantes docC7).1.map
      (fun r => r.pos) :=
  c7_leaf_children_never_reported.2 docC7 [0, 0, 0] "div" [] div7Children
    rfl (by decide)

/-! ### Claim C8 -/

/-- Claim C8: the dominance boundary is inclusive.  Concretely, `docC8`'s
first `<div>` — five element children, dominant group of exactly three, so a
share of exactly 3/5 = `UMBRAL_FRECUENCIA` — is accepted and reported; and in
general any container whose dominant share is strictly below the threshold is
never reported. -/
theorem c8_dominance_boundary :
    ((encontrar_contenedores_relevantes docC8).1.map
        (fun r => (r.pos, r.unit_count)) = [([0, 0, 0], 3)] ∧
      (elemChildren div8aChildren).length = 5 ∧
      (3 : ℚ) / 5 = UMBRAL_FRECUENCIA) ∧
    (∀ (umbral : ℚ) (root : Node) (p : List Nat) (nm : String)
      (attrs : List (String × String)) (cs : List Node)
      (hd : String) (us : List Node),
      getNode root p = some (.elem nm attrs cs) →
      maxGroup (groupByHuella (elemChildren cs)) = some (hd, us) →
      (us.length : ℚ) / ((elemChildren cs).length : ℚ) < umbral →
      p ∉ (encontrarConUmbral umbral root).1.map (fun r => r.pos)) := by
  refine ⟨⟨rfl, rfl, rfl⟩, ?_⟩
  intro umbral root p nm attrs cs hd us hg hmax hlt hmem
  simp only [List.mem_map] at hmem
  obtain ⟨r, hr, hrp⟩ := hmem
  obtain ⟨nm', attrs', cs', hg', _, hd', us', hmax', hfreq, _, _, _⟩ :=
    mem_encontrar_accepted hr
  rw [hrp, hg] at hg'
  obtain ⟨rfl, rfl, rfl⟩ : nm = nm' ∧ attrs = attrs' ∧ cs = cs' := by
    cases hg'
    exact ⟨rfl, rfl, rfl⟩
  rw [hmax] at hmax'
  obtain ⟨rfl, rfl⟩ : hd = hd' ∧ us = us' := by
    cases hmax'
    exact ⟨rfl, rfl⟩
  exact absurd hfreq (not_le.mpr hlt)

/-- Claim C8 witness: at a raised threshold 7/10 the same container (share
3/5 < 7/10) is rejected. -/
theorem c8_dominance_boundary_witness :
    [0, 0, 0] ∉ (encontrarConUmbral (7 / 10) docC8).1.map (fun r => r.pos) :=
  c8_dominance_boundary.2 (7 / 10) docC8 [0, 0, 0] "div" [] div8aChildren
    "a" [liaHref "a1", liaHref "a2", liaHref "a3"] rfl rfl (by decide)

/-! ### The values dict: lookup and key lemmas -/

theorem lookupVals_eq_nil_of_not_any
    {m : List ((String × String) × List String)} {k : String × String}
    (h : m.any (fun kv => decide (kv.1 = k)) = false) :
    lookupVals m k = [] := by
  induction m with
  | nil => rfl
  | cons kv rest ih =>
    simp only [List.any_cons, Bool.or_eq_false_iff, decide_eq_false_iff_not]
      at h
    unfold lookupVals
    rw [if_neg h.1]
    exact ih h.2

theorem lookupVals_append (m m' : List ((String × String) × List String))
    (k : String × String) :
    lookupVals (m ++ m') k =
      if m.any (fun kv => decide (kv.1 = k)) then lookupVals m k
      else lookupVals m' k := by
  induction m with
  | nil => simp [lookupVals]
  | cons kv rest ih =>
    by_cases hk : kv.1 = k
    · simp [lookupVals, hk]
    · simp only [List.cons_append, lookupVals, if_neg hk, List.any_cons,
        decide_eq_false hk, Bool.false_or]
      exact ih

theorem lookupVals_map_update_ne
    {k' k : String × String} {v : String} (hne : k ≠ k') :
    ∀ m : List ((String × String) × List String),
      lookupVals (m.map (fun kv =>
        if kv.1 = k' then (kv.1, kv.2 ++ [v]) else kv)) k =
      lookupVals m k := by
  intro m
  induction m with
  | nil => rfl
  | cons kv rest ih =>
    simp only [List.map_cons]
    by_cases hkv : kv.1 = k
    · have h1 : ¬ kv.1 = k' := fun hb => hne (hkv ▸ hb)
      unfold lookupVals
      rw [if_neg h1, if_pos hkv, if_pos hkv]
    · by_cases h2 : kv.1 = k'
      · unfold lookupVals
        rw [if_pos h2]
        have h3 : ¬ (kv.1, kv.2 ++ [v]).1 = k := hkv
        rw [if_neg h3, if_neg hkv]
        exact ih
      · unfold lookupVals
        rw [if_neg h2, if_neg hkv, if_neg hkv]
        exact ih

theorem lookupVals_map_update_eq
    {k : String × String} {v : String} :
    ∀ m : List ((String × String) × List String),
      m.any (fun kv => decide (kv.1 = k)) = true →
      lookupVals (m.map (fun kv =>
        if kv.1 = k then (kv.1, kv.2 ++ [v]) else kv)) k =
      lookupVals m k ++ [v] := by
  intro m
  induction m with
  | nil => intro h; simp at h
  | cons kv rest ih =>
    intro hany
    simp only [List.map_cons]
    by_cases hkv : kv.1 = k
    · unfold lookupVals
      rw [if_pos hkv, if_pos hkv, if_pos hkv]
    · simp only [List.any_cons, decide_eq_false hkv, Bool.false_or] at hany
      unfold lookupVals
      rw [if_neg hkv, if_neg hkv, if_neg hkv]
      exact ih hany

theorem lookupVals_dictAppendVal
    (m : List ((String × String) × List String)) (k' k : String × String)
    (v : String) :
    lookupVals (dictAppendVal m k' v) k =
      if k = k' then lookupVals m k ++ [v] else lookupVals m k := by
  unfold dictAppendVal
  by_cases hany : m.any (fun kv => decide (kv.1 = k')) = true
  · rw [if_pos hany]
    by_cases hkk : k = k'
    · subst hkk
      rw [if_pos rfl]
      exact lookupVals_map_update_eq m hany
    · rw [if_neg hkk]
      exact lookupVals_map_update_ne hkk m
  · rw [if_neg hany]
    rw [lookupVals_append]
    by_cases hkk : k = k'
    · subst hkk
      have h0 : (m.any fun kv => decide (kv.1 = k)) = false :=
        eq_false_of_ne_true hany
      rw [h0, lookupVals_eq_nil_of_not_any h0]
      simp [lookupVals]
    · by_cases h1 : (m.any fun kv => decide (kv.1 = k)) = true
      · rw [h1]
        simp [hkk]
      · have h2 := eq_false_of_ne_true h1
        rw [h2, lookupVals_eq_nil_of_not_any h2]
        have h3 : ¬ k' = k := fun he => hkk he.symm
        simp [lookupVals, hkk, h3]

theorem lookupVals_foldl_entries
    (es : List (String × String × String))
    (m : List ((String × String) × List String)) (k : String × String) :
    lookupVals (es.foldl (fun m e => dictAppendVal m (e.1, e.2.1) e.2.2) m) k =
      lookupVals m k ++
        ((es.filter (fun e => decide ((e.1, e.2.1) = k))).map
          (fun e => e.2.2)) := by
  induction es generalizing m with
  | nil => simp
  | cons e rest ih =>
    simp only [List.foldl_cons]
    rw [ih, lookupVals_dictAppendVal]
    by_cases hk : k = (e.1, e.2.1)
    · rw [if_pos hk]
      have hd : decide ((e.1, e.2.1) = k) = true := by simp [hk]
      simp [List.filter_cons, hd]
    · rw [if_neg hk]
      have hd : decide ((e.1, e.2.1) = k) = false := by
        simp only [decide_eq_false_iff_not]
        exact fun he => hk he.symm
      simp [List.filter_cons, hd]

theorem lookupVals_mapaValores (us : List Node) (k : String × String) :
    lookupVals (mapaValoresPorClave us) k = collectedValues us k := by
  have key : ∀ (vs : List Node) (m : List ((String × String) × List String)),
      lookupVals (vs.foldl (fun m u =>
        (obtener_atributos_descendientes_con_ruta_y_texto u).foldl
          (fun m e => dictAppendVal m (e.1, e.2.1) e.2.2) m) m) k =
      lookupVals m k ++ collectedValues vs k := by
    intro vs
    induction vs with
    | nil => intro m; simp [collectedValues]
    | cons u rest ih =>
      intro m
      simp only [List.foldl_cons]
      rw [ih, lookupVals_foldl_entries]
      simp [collectedValues, List.append_assoc]
  unfold mapaValoresPorClave
  rw [key]
  simp [lookupVals]

theorem keys_dictAppendVal (m : List ((String × String) × List String))
    (k : String × String) (v : String) :
    (dictAppendVal m k v).map (fun kv => kv.1) =
      if m.any (fun kv => decide (kv.1 = k)) then m.map (fun kv => kv.1)
      else m.map (fun kv => kv.1) ++ [k] := by
  unfold dictAppendVal
  by_cases hany : (m.any fun kv => decide (kv.1 = k)) = true
  · rw [if_pos hany, if_pos hany, List.map_map]
    congr 1
    funext kv
    by_cases h : kv.1 = k <;> simp [h]
  · rw [if_neg hany, if_neg hany, List.map_append]
    rfl

theorem nodup_keys_dictAppendVal {m : List ((String × String) × List String)}
    (h : (m.map (fun kv => kv.1)).Nodup) (k : String × String) (v : String) :
    ((dictAppendVal m k v).map (fun kv => kv.1)).Nodup := by
  rw [keys_dictAppendVal]
  by_cases hany : (m.any fun kv => decide (kv.1 = k)) = true
  · rw [if_pos hany]; exact h
  · rw [if_neg hany]
    have hk : k ∉ m.map (fun kv => kv.1) := by
      intro hkm
      rw [List.mem_map] at hkm
      obtain ⟨kv, hkv, hkv1⟩ := hkm
      apply hany
      rw [List.any_eq_true]
      exact ⟨kv, hkv, by simp [hkv1]⟩
    simp [List.nodup_append, h, hk]

theorem mapaValores_keys_nodup (us : List Node) :
    ((mapaValoresPorClave us).map (fun kv => kv.1)).Nodup := by
  have key : ∀ (l : List (String × String × String))
      (m : List ((String × String) × List String)),
      (m.map (fun kv => kv.1)).Nodup →
      ((l.foldl (fun m e => dictAppendVal m (e.1, e.2.1) e.2.2) m).map
        (fun kv => kv.1)).Nodup := by
    intro l
    induction l with
    | nil => intro m h; exact h
    | cons e rest ih =>
      intro m h
      exact ih _ (nodup_keys_dictAppendVal h _ _)
  have key2 : ∀ (vs : List Node)
      (m : List ((String × String) × List String)),
      (m.map (fun kv => kv.1)).Nodup →
      ((vs.foldl (fun m u =>
        (obtener_atributos_descendientes_con_ruta_y_texto u).foldl
          (fun m e => dictAppendVal m (e.1, e.2.1) e.2.2) m) m).map
        (fun kv => kv.1)).Nodup := by
    intro vs
    induction vs with
    | nil => intro m h; exact h
    | cons u rest ih =>
      intro m h
      exact ih _ (key _ _ h)
  exact key2 us [] (by simp)

theorem lookupVals_of_mem_nodup {m : List ((String × String) × List String)}
    (hnd : (m.map (fun kv => kv.1)).Nodup)
    {kv : (String × String) × List String} (hm : kv ∈ m) :
    lookupVals m kv.1 = kv.2 := by
  induction m with
  | nil => cases hm
  | cons hd rest ih =>
    rw [List.map_cons, List.nodup_cons] at hnd
    rcases List.mem_cons.mp hm with rfl | hm'
    · unfold lookupVals; rw [if_pos rfl]
    · unfold lookupVals
      rw [if_neg ?_]
      · exact ih hnd.2 hm'
      · intro he
        exact hnd.1 (he ▸ List.mem_map.mpr ⟨kv, hm', rfl⟩)

theorem values_ne_nil_dictAppendVal
    {m : List ((String × String) × List String)}
    (h : ∀ kv ∈ m, kv.2 ≠ []) (k : String × String) (v : String) :
    ∀ kv ∈ dictAppendVal m k v, kv.2 ≠ [] := by
  unfold dictAppendVal
  intro kv hkv
  by_cases hany : (m.any fun kv => decide (kv.1 = k)) = true
  · rw [if_pos hany] at hkv
    rw [List.mem_map] at hkv
    obtain ⟨kv0, hkv0, rfl⟩ := hkv
    by_cases hk : kv0.1 = k
    · simp [hk]
    · rw [if_neg hk]
      exact h kv0 hkv0
  · rw [if_neg hany] at hkv
    rw [List.mem_append] at hkv
    rcases hkv with hkv | hkv
    · exact h kv hkv
    · rw [List.mem_singleton] at hkv
      subst hkv
      simp

theorem mapaValores_values_ne_nil (us : List Node) :
    ∀ kv ∈ mapaValoresPorClave us, kv.2 ≠ [] := by
  have key : ∀ (l : List (String × String × String))
      (m : List ((String × String) × List String)),
      (∀ kv ∈ m, kv.2 ≠ []) →
      ∀ kv ∈ l.foldl (fun m e => dictAppendVal m (e.1, e.2.1) e.2.2) m,
        kv.2 ≠ [] := by
    intro l
    induction l with
    | nil => intro m h; exact h
    | cons e rest ih =>
      intro m h
      exact ih _ (values_ne_nil_dictAppendVal h _ _)
  have key2 : ∀ (vs : List Node)
      (m : List ((String × String) × List String)),
      (∀ kv ∈ m, kv.2 ≠ []) →
      ∀ kv ∈ vs.foldl (fun m u =>
        (obtener_atributos_descendientes_con_ruta_y_texto u).foldl
          (fun m e => dictAppendVal m (e.1, e.2.1) e.2.2) m) m,
        kv.2 ≠ [] := by
    intro vs
    induction vs with
    | nil => intro m h; exact h
    | cons u rest ih =>
      intro m h
      exact ih _ (key _ _ h)
  exact key2 us [] (by simp)

theorem mem_keys_iff_collected_ne_nil (us : List Node) (k : String × String) :
    (∃ kv ∈ mapaValoresPorClave us, kv.1 = k) ↔
      collectedValues us k ≠ [] := by
  constructor
  · rintro ⟨kv, hkv, rfl⟩
    rw [← lookupVals_mapaValores,
      lookupVals_of_mem_nodup (mapaValores_keys_nodup us) hkv]
    exact mapaValores_values_ne_nil us kv hkv
  · intro hne
    by_contra hnex
    push_neg at hnex
    have hanyf : (mapaValoresPorClave us).any
        (fun kv => decide (kv.1 = k)) = false := by
      rw [← Bool.not_eq_true, List.any_eq_true]
      rintro ⟨kv, hkv, hdec⟩
      exact hnex kv hkv (of_decide_eq_true hdec)
    have h0 := lookupVals_eq_nil_of_not_any hanyf
    rw [lookupVals_mapaValores] at h0
    exact hne h0

theorem mem_variableKeysOf_iff (us : List Node) (k : String × String) :
    k ∈ variableKeysOf us ↔
      ((collectedValues us k).length = us.length ∧
        (collectedValues us k).dedup.length > 1) := by
  unfold variableKeysOf
  rw [List.mem_filterMap]
  constructor
  · rintro ⟨kv, hkv, hsome⟩
    by_cases hcond : kv.2.length = us.length ∧ kv.2.dedup.length > 1
    · rw [if_pos hcond] at hsome
      injection hsome with h1
      subst h1
      have heq := lookupVals_of_mem_nodup (mapaValores_keys_nodup us) hkv
      rw [lookupVals_mapaValores] at heq
      rw [heq]
      exact hcond
    · rw [if_neg hcond] at hsome
      cases hsome
  · intro ⟨h1, h2⟩
    have hne : collectedValues us k ≠ [] := by
      intro h0
      rw [h0] at h2
      simp at h2
    obtain ⟨kv, hkv, rfl⟩ := (mem_keys_iff_collected_ne_nil us k).mpr hne
    refine ⟨kv, hkv, ?_⟩
    have heq := lookupVals_of_mem_nodup (mapaValores_keys_nodup us) hkv
    rw [lookupVals_mapaValores] at heq
    rw [if_pos (by rw [← heq]; exact ⟨h1, h2⟩)]

theorem sum_le_length_of_all_le_one :
    ∀ l : List Nat, (∀ x ∈ l, x ≤ 1) → l.sum ≤ l.length := by
  intro l
  induction l with
  | nil => intro _; simp
  | cons a rest ih =>
    intro h
    have ha := h a (List.mem_cons_self _ _)
    have := ih (fun x hx => h x (List.mem_cons_of_mem _ hx))
    simp only [List.sum_cons, List.length_cons]
    omega

theorem sum_eq_length_iff_all_one {l : List Nat} (h : ∀ x ∈ l, x ≤ 1) :
    l.sum = l.length ↔ ∀ x ∈ l, x = 1 := by
  induction l with
  | nil => simp
  | cons a rest ih =>
    have ha := h a (List.mem_cons_self _ _)
    have hrest : ∀ x ∈ rest, x ≤ 1 :=
      fun x hx => h x (List.mem_cons_of_mem _ hx)
    have hsum := sum_le_length_of_all_le_one rest hrest
    simp only [List.sum_cons, List.length_cons, List.mem_cons]
    constructor
    · intro heq
      have ha1 : a = 1 := by omega
      have : rest.sum = rest.length := by omega
      intro x hx
      rcases hx with rfl | hx
      · exact ha1
      · exact ((ih hrest).mp this) x hx
    · intro hall
      have ha1 : a = 1 := hall a (Or.inl rfl)
      have : rest.sum = rest.length :=
        (ih hrest).mpr (fun x hx => hall x (Or.inr hx))
      omega

theorem dedup_length_gt_one_iff {l : List String} :
    l.dedup.length > 1 ↔ ∃ v ∈ l, ∃ w ∈ l, v ≠ w := by
  constructor
  · intro h
    cases hd : l.dedup with
    | nil => rw [hd] at h; simp at h
    | cons a rest =>
      cases rest with
      | nil => rw [hd] at h; simp at h
      | cons b rest2 =>
        have hnd := l.nodup_dedup
        rw [hd] at hnd
        rw [List.nodup_cons] at hnd
        have hab : a ≠ b := fun he => hnd.1 (he ▸ List.mem_cons_self _ _)
        have ha : a ∈ l := by
          rw [← List.mem_dedup, hd]
          exact List.mem_cons_self _ _
        have hb : b ∈ l := by
          rw [← List.mem_dedup, hd]
          exact List.mem_cons_of_mem _ (List.mem_cons_self _ _)
        exact ⟨a, ha, b, hb, hab⟩
  · rintro ⟨v, hv, w, hw, hvw⟩
    by_contra hle
    push_neg at hle
    have hv' : v ∈ l.dedup := List.mem_dedup.mpr hv
    have hw' : w ∈ l.dedup := List.mem_dedup.mpr hw
    cases hd : l.dedup with
    | nil => rw [hd] at hv'; cases hv'
    | cons a rest =>
      cases rest with
      | nil =>
        rw [hd] at hv' hw'
        rw [List.mem_singleton] at hv' hw'
        exact hvw (hv'.trans hw'.symm)
      | cons b rest2 =>
        rw [hd] at hle
        simp at hle

/-! ### Claim C4 -/

/-- Claim C4: in the fingerprint-dominant strategy a FieldKey is promoted to
variable exactly when it is present in every unit of the dominant group and
its observed values are not all identical.  The first conjunct ties the
engine's output to `variableAttrsFinal` over the dominant group; the second
is the characterization, under the invariant (true of every parser-produced
unit) that one unit never collects the same FieldKey twice. -/
theorem c4_variable_iff_strict_presence_and_varying :
    (∀ (umbral : ℚ) (root : Node) (r : Resultado),
      r ∈ (encontrarConUmbral umbral root).1 →
      ∃ us : List Node, r.unit_count = us.length ∧
        r.semantic_variable_attrs = variableAttrsFinal us) ∧
    (∀ (us : List Node) (k : String × String),
      (∀ u ∈ us, (unitKeys u).Nodup) →
      (k ∈ variableKeysOf us ↔
        ((∀ u ∈ us, k ∈ unitKeys u) ∧
          ∃ v ∈ collectedValues us k, ∃ w ∈ collectedValues us k, v ≠ w))) := by
  constructor
  · intro umbral root r hr
    obtain ⟨nm, attrs, cs, _, _, hd, us, _, _, hvar_eq, _, hcount⟩ :=
      mem_encontrar_accepted hr
    exact ⟨us, hcount, hvar_eq⟩
  · intro us k hnd
    rw [mem_variableKeysOf_iff, dedup_length_gt_one_iff]
    have hcnt : ∀ u ∈ us,
        ((obtener_atributos_descendientes_con_ruta_y_texto u).filter
          (fun e => decide ((e.1, e.2.1) = k))).length ≤ 1 := by
      intro u hu
      by_contra hgt
      push_neg at hgt
      cases hfl : (obtener_atributos_descendientes_con_ruta_y_texto u).filter
          (fun e => decide ((e.1, e.2.1) = k)) with
      | nil => rw [hfl] at hgt; simp at hgt
      | cons e1 tl =>
        cases tl with
        | nil => rw [hfl] at hgt; simp at hgt
        | cons e2 tl2 =>
          have hsub : ((((obtener_atributos_descendientes_con_ruta_y_texto
              u).filter (fun e => decide ((e.1, e.2.1) = k))).map
              (fun e => (e.1, e.2.1)))).Sublist (unitKeys u) :=
            List.Sublist.map _ (List.filter_sublist _)
          have hnd2 := (hnd u hu).sublist hsub
          rw [hfl] at hnd2
          have h1 : (e1.1, e1.2.1) = k := by
            have : e1 ∈ (obtener_atributos_descendientes_con_ruta_y_texto
                u).filter (fun e => decide ((e.1, e.2.1) = k)) := by
              rw [hfl]; exact List.mem_cons_self _ _
            exact of_decide_eq_true (List.mem_filter.mp this).2
          have h2 : (e2.1, e2.2.1) = k := by
            have : e2 ∈ (obtener_atributos_descendientes_con_ruta_y_texto
                u).filter (fun e => decide ((e.1, e.2.1) = k)) := by
              rw [hfl]
              exact List.mem_cons_of_mem _ (List.mem_cons_self _ _)
            exact of_decide_eq_true (List.mem_filter.mp this).2
          rw [List.map_cons, List.map_cons, List.nodup_cons, h1, h2] at hnd2
          exact hnd2.1 (List.mem_cons_self _ _)
    have hmemcnt : ∀ u ∈ us, (k ∈ unitKeys u ↔
        0 < ((obtener_atributos_descendientes_con_ruta_y_texto u).filter
          (fun e => decide ((e.1, e.2.1) = k))).length) := by
      intro u hu
      unfold unitKeys
      rw [List.mem_map]
      constructor
      · rintro ⟨e, he, hk⟩
        rw [List.length_pos]
        exact List.ne_nil_of_mem
          (List.mem_filter.mpr ⟨he, by simp [hk]⟩)
      · intro hpos
        rw [List.length_pos] at hpos
        obtain ⟨e, he⟩ := List.exists_mem_of_ne_nil _ hpos
        have := List.mem_filter.mp he
        exact ⟨e, this.1, of_decide_eq_true this.2⟩
    have hlen : (collectedValues us k).length =
        (us.map (fun u =>
          ((obtener_atributos_descendientes_con_ruta_y_texto u).filter
            (fun e => decide ((e.1, e.2.1) = k))).length)).sum := by
      unfold collectedValues
      rw [List.length_flatMap]
      congr 1
      simp [Function.comp_def]
    have hle1 : ∀ x ∈ us.map (fun u =>
        ((obtener_atributos_descendientes_con_ruta_y_texto u).filter
          (fun e => decide ((e.1, e.2.1) = k))).length), x ≤ 1 := by
      intro x hx
      rw [List.mem_map] at hx
      obtain ⟨u, hu, rfl⟩ := hx
      exact hcnt u hu
    constructor
    · intro ⟨h1, h2⟩
      refine ⟨?_, h2⟩
      rw [hlen] at h1
      have h1' : (us.map (fun u =>
          ((obtener_atributos_descendientes_con_ruta_y_texto u).filter
            (fun e => decide ((e.1, e.2.1) = k))).length)).sum =
          (us.map (fun u =>
          ((obtener_atributos_descendientes_con_ruta_y_texto u).filter
            (fun e => decide ((e.1, e.2.1) = k))).length)).length := by
        rw [List.length_map]
        exact h1
      have hall := (sum_eq_length_iff_all_one hle1).mp h1'
      intro u hu
      rw [hmemcnt u hu]
      have := hall _ (List.mem_map.mpr ⟨u, hu, rfl⟩)
      omega
    · intro ⟨h1, h2⟩
      refine ⟨?_, h2⟩
      rw [hlen]
      have hall : ∀ x ∈ us.map (fun u =>
          ((obtener_atributos_descendientes_con_ruta_y_texto u).filter
            (fun e => decide ((e.1, e.2.1) = k))).length), x = 1 := by
        intro x hx
        rw [List.mem_map] at hx
        obtain ⟨u, hu, rfl⟩ := hx
        have hm := (hmemcnt u hu).mp (h1 u hu)
        have hc := hcnt u hu
        omega
      have := (sum_eq_length_iff_all_one hle1).mpr hall
      rw [this, List.length_map]

/-- Claim C4 witness: over the three `<li><a href>` rows of
`div8bChildren` the href key is present in every unit with three distinct
values, and is indeed promoted to variable. -/
theorem c4_variable_iff_strict_presence_and_varying_witness :
    ("a[0]", "href") ∈ variableKeysOf div8bChildren :=
  (c4_variable_iff_strict_presence_and_varying.2 div8bChildren
    ("a[0]", "href") (by decide)).mpr ⟨by decide, by decide⟩

/-! ### Fingerprint serialization lemmas -/

theorem string_eq_empty_iff {s : String} : s = "" ↔ s.data = [] := by
  constructor
  · intro h; rw [h]
  · intro h; cases s; exact congrArg String.mk h

theorem string_data_inj {a b : String} (h : a.data = b.data) : a = b := by
  cases a; cases b; exact congrArg String.mk h

theorem okName_head {nm : String}
    (h1 : (!(nm == "")) = true)
    (h2 : nm.data.all (fun c => !(specialChar c)) = true) :
    ∃ d ds, nm.data = d :: ds ∧ specialChar d = false := by
  have hne : nm ≠ "" := by simpa using h1
  cases hd : nm.data with
  | nil => exact absurd (string_eq_empty_iff.mpr hd) hne
  | cons d ds =>
    refine ⟨d, ds, rfl, ?_⟩
    have := List.all_eq_true.mp h2 d (by rw [hd]; exact List.mem_cons_self _ _)
    simpa using this

theorem name_split :
    ∀ (a₁ : List Char) {a₂ b₁ b₂ : List Char},
      (∀ c ∈ a₁, specialChar c = false) →
      (∀ c ∈ a₂, specialChar c = false) →
      headSpecialP b₁ → headSpecialP b₂ →
      a₁ ++ b₁ = a₂ ++ b₂ → a₁ = a₂ ∧ b₁ = b₂ := by
  intro a₁
  induction a₁ with
  | nil =>
    intro a₂ b₁ b₂ h₁ h₂ hb₁ hb₂ heq
    cases a₂ with
    | nil => exact ⟨rfl, heq⟩
    | cons y a₂' =>
      exfalso
      rw [List.nil_append] at heq
      simp only [List.cons_append] at heq
      rw [heq] at hb₁
      simp only [headSpecialP] at hb₁
      have hy := h₂ y (List.mem_cons_self _ _)
      rw [hy] at hb₁
      exact Bool.false_ne_true hb₁
  | cons x a₁' ih =>
    intro a₂ b₁ b₂ h₁ h₂ hb₁ hb₂ heq
    cases a₂ with
    | nil =>
      exfalso
      rw [List.nil_append] at heq
      simp only [List.cons_append] at heq
      rw [← heq] at hb₂
      simp only [headSpecialP] at hb₂
      have hx := h₁ x (List.mem_cons_self _ _)
      rw [hx] at hb₂
      exact Bool.false_ne_true hb₂
    | cons y a₂' =>
      simp only [List.cons_append] at heq
      injection heq with hxy heq'
      subst hxy
      obtain ⟨ha, hb⟩ := ih (fun c hc => h₁ c (List.mem_cons_of_mem _ hc))
        (fun c hc => h₂ c (List.mem_cons_of_mem _ hc)) hb₁ hb₂ heq'
      exact ⟨by rw [ha], hb⟩

theorem encSeq_cons (sh : Shape) (rest : List Shape) :
    encSeq (sh :: rest) = encItem sh ++ encTail rest := by
  cases rest with
  | nil => simp [encSeq, encTail]
  | cons x xs => rfl

theorem encItem_ne_nil {sh : Shape} (h : okShapeB sh = true) :
    encItem sh ≠ [] := by
  obtain ⟨nm, cs⟩ := sh
  simp only [okShapeB, Bool.and_eq_true] at h
  obtain ⟨⟨h1, h2⟩, h3⟩ := h
  obtain ⟨d, ds, hd, hspec⟩ := okName_head h1 h2
  unfold encItem
  rw [hd]
  simp

theorem encSeq_eq_nil_iff {cs : List Shape} (h : okForestB cs = true) :
    encSeq cs = [] ↔ cs = [] := by
  cases cs with
  | nil => simp [encSeq]
  | cons sh rest =>
    simp only [okForestB, Bool.and_eq_true] at h
    rw [encSeq_cons]
    constructor
    · intro he
      exact absurd (List.append_eq_nil.mp he).1 (encItem_ne_nil h.1)
    · intro he; cases he

theorem headSpecialP_encTail_append {cs : List Shape} {r : List Char}
    (hr : okSeqRest r) : headSpecialP (encTail cs ++ r) := by
  cases cs with
  | nil =>
    simp only [encTail, List.nil_append]
    cases r with
    | nil => trivial
    | cons c r' =>
      simp only [okSeqRest] at hr
      simp only [headSpecialP, hr]
      decide
  | cons sh rest =>
    simp only [encTail, List.cons_append, headSpecialP]
    decide

theorem encSeq_append_inj :
    ∀ (n : Nat), ∀ (cs₁ : List Shape), shapeListSize cs₁ ≤ n →
      ∀ (cs₂ : List Shape) (r₁ r₂ : List Char),
        okForestB cs₁ = true → okForestB cs₂ = true →
        encSeq cs₁ ++ r₁ = encSeq cs₂ ++ r₂ →
        okSeqRest r₁ → okSeqRest r₂ →
        cs₁ = cs₂ ∧ r₁ = r₂ := by
  intro n
  induction n using Nat.strong_induction_on with
  | _ n ih =>
    intro cs₁ hsize cs₂ r₁ r₂ hok₁ hok₂ heq hr₁ hr₂
    cases cs₁ with
    | nil =>
      cases cs₂ with
      | nil =>
        refine ⟨rfl, ?_⟩
        simpa [encSeq] using heq
      | cons c₂ cs₂' =>
        exfalso
        rw [encSeq_cons] at heq
        simp only [encSeq, List.nil_append, List.append_assoc] at heq
        simp only [okForestB, Bool.and_eq_true] at hok₂
        obtain ⟨nm₂, k₂⟩ := c₂
        simp only [okShapeB, Bool.and_eq_true] at hok₂
        obtain ⟨d, ds, hd, hspec⟩ := okName_head hok₂.1.1.1 hok₂.1.1.2
        unfold encItem at heq
        rw [hd] at heq
        simp only [List.cons_append] at heq
        rw [heq] at hr₁
        simp only [okSeqRest] at hr₁
        rw [hr₁] at hspec
        exact absurd hspec (by decide)
    | cons c₁ cs₁' =>
      cases cs₂ with
      | nil =>
        exfalso
        rw [encSeq_cons] at heq
        simp only [encSeq, List.nil_append, List.append_assoc] at heq
        simp only [okForestB, Bool.and_eq_true] at hok₁
        obtain ⟨nm₁, k₁⟩ := c₁
        simp only [okShapeB, Bool.and_eq_true] at hok₁
        obtain ⟨d, ds, hd, hspec⟩ := okName_head hok₁.1.1.1 hok₁.1.1.2
        unfold encItem at heq
        rw [hd] at heq
        simp only [List.cons_append] at heq
        rw [← heq] at hr₂
        simp only [okSeqRest] at hr₂
        rw [hr₂] at hspec
        exact absurd hspec (by decide)
      | cons c₂ cs₂' =>
        rw [encSeq_cons, encSeq_cons] at heq
        rw [List.append_assoc, List.append_assoc] at heq
        obtain ⟨nm₁, k₁⟩ := c₁
        obtain ⟨nm₂, k₂⟩ := c₂
        simp only [okForestB, okShapeB, Bool.and_eq_true] at hok₁ hok₂
        obtain ⟨⟨⟨h1a, h1b⟩, h1c⟩, h1d⟩ := hok₁
        obtain ⟨⟨⟨h2a, h2b⟩, h2c⟩, h2d⟩ := hok₂
        unfold encItem at heq
        rw [List.append_assoc, List.append_assoc] at heq
        have hns₁ : ∀ c ∈ nm₁.data, specialChar c = false := by
          intro c hc
          have := List.all_eq_true.mp h1b c hc
          simpa using this
        have hns₂ : ∀ c ∈ nm₂.data, specialChar c = false := by
          intro c hc
          have := List.all_eq_true.mp h2b c hc
          simpa using this
        have hhead₁ : headSpecialP
            ((if encSeq k₁ = [] then []
              else '[' :: (encSeq k₁ ++ [']'])) ++ (encTail cs₁' ++ r₁)) := by
          by_cases hk : encSeq k₁ = []
          · rw [if_pos hk]
            simp only [List.nil_append]
            exact headSpecialP_encTail_append hr₁
          · rw [if_neg hk]
            simp only [List.cons_append, headSpecialP]
            decide
        have hhead₂ : headSpecialP
            ((if encSeq k₂ = [] then []
              else '[' :: (encSeq k₂ ++ [']'])) ++ (encTail cs₂' ++ r₂)) := by
          by_cases hk : encSeq k₂ = []
          · rw [if_pos hk]
            simp only [List.nil_append]
            exact headSpecialP_encTail_append hr₂
          · rw [if_neg hk]
            simp only [List.cons_append, headSpecialP]
            decide
        obtain ⟨hnmd, hrest⟩ :=
          name_split nm₁.data hns₁ hns₂ hhead₁ hhead₂ heq
        have hnm : nm₁ = nm₂ := string_data_inj hnmd
        subst hnm
        have hsz : 1 + shapeListSize k₁ + shapeListSize cs₁' ≤ n := by
          have : shapeListSize (Shape.node nm₁ k₁ :: cs₁') =
              1 + shapeListSize k₁ + shapeListSize cs₁' := by
            simp [shapeListSize, shapeSize]
          omega
        have tail_stage : encTail cs₁' ++ r₁ = encTail cs₂' ++ r₂ →
            cs₁' = cs₂' ∧ r₁ = r₂ := by
          intro hT
          cases cs₁' with
          | nil =>
            cases cs₂' with
            | nil =>
              refine ⟨rfl, ?_⟩
              simpa [encTail] using hT
            | cons y ys =>
              exfalso
              simp only [encTail, List.nil_append, List.cons_append] at hT
              rw [hT] at hr₁
              simp only [okSeqRest] at hr₁
              cases hr₁
          | cons x xs =>
            cases cs₂' with
            | nil =>
              exfalso
              simp only [encTail, List.nil_append, List.cons_append] at hT
              rw [← hT] at hr₂
              simp only [okSeqRest] at hr₂
              cases hr₂
            | cons y ys =>
              simp only [encTail, List.cons_append] at hT
              injection hT with _ hT'
              exact ih (shapeListSize (x :: xs)) (by
                  simp only [shapeListSize, shapeSize] at hsz ⊢
                  omega)
                (x :: xs) le_rfl (y :: ys) r₁ r₂ h1d h2d hT' hr₁ hr₂
        by_cases hk₁ : encSeq k₁ = []
        · by_cases hk₂ : encSeq k₂ = []
          · rw [if_pos hk₁, if_pos hk₂] at hrest
            simp only [List.nil_append] at hrest
            have hk₁' : k₁ = [] := (encSeq_eq_nil_iff h1c).mp hk₁
            have hk₂' : k₂ = [] := (encSeq_eq_nil_iff h2c).mp hk₂
            subst hk₁'
            subst hk₂'
            obtain ⟨h5, h6⟩ := tail_stage hrest
            exact ⟨by rw [h5], h6⟩
          · exfalso
            rw [if_pos hk₁, if_neg hk₂] at hrest
            simp only [List.nil_append, List.cons_append] at hrest
            cases hc₁ : cs₁' with
            | nil =>
              rw [hc₁] at hrest
              simp only [encTail, List.nil_append] at hrest
              rw [hrest] at hr₁
              simp only [okSeqRest] at hr₁
              cases hr₁
            | cons x xs =>
              rw [hc₁] at hrest
              simp only [encTail, List.cons_append] at hrest
              injection hrest with hcc _
              exact absurd hcc (by decide)
        · by_cases hk₂ : encSeq k₂ = []
          · exfalso
            rw [if_neg hk₁, if_pos hk₂] at hrest
            simp only [List.nil_append, List.cons_append] at hrest
            cases hc₂ : cs₂' with
            | nil =>
              rw [hc₂] at hrest
              simp only [encTail, List.nil_append] at hrest
              rw [← hrest] at hr₂
              simp only [okSeqRest] at hr₂
              cases hr₂
            | cons y ys =>
              rw [hc₂] at hrest
              simp only [encTail, List.cons_append] at hrest
              injection hrest with hcc _
              exact absurd hcc (by decide)
          · rw [if_neg hk₁, if_neg hk₂] at hrest
            simp only [List.cons_append] at hrest
            injection hrest with _ hrest'
            rw [List.append_assoc, List.append_assoc] at hrest'
            simp only [List.singleton_append] at hrest'
            obtain ⟨hkk, htl⟩ := ih (shapeListSize k₁) (by omega)
              k₁ le_rfl k₂ (']' :: (encTail cs₁' ++ r₁))
              (']' :: (encTail cs₂' ++ r₂)) h1c h2c hrest'
              (by simp [okSeqRest]) (by simp [okSeqRest])
            injection htl with _ htl'
            obtain ⟨h5, h6⟩ := tail_stage htl'
            exact ⟨by rw [hkk, h5], h6⟩

theorem encSeq_inj {cs₁ cs₂ : List Shape}
    (h₁ : okForestB cs₁ = true) (h₂ : okForestB cs₂ = true)
    (heq : encSeq cs₁ = encSeq cs₂) : cs₁ = cs₂ :=
  (encSeq_append_inj (shapeListSize cs₁) cs₁ le_rfl cs₂ [] []
    h₁ h₂ (by simpa using heq) trivial trivial).1

theorem joinWith_plus_data :
    ∀ parts : List String,
      (joinWith "+" parts).data = joinCharPlus (parts.map String.data) := by
  intro parts
  induction parts with
  | nil => rfl
  | cons s rest ih =>
    cases rest with
    | nil => rfl
    | cons t rest' =>
      show (s ++ "+" ++ joinWith "+" (t :: rest')).data =
        s.data ++ '+' :: joinCharPlus ((t :: rest').map String.data)
      rw [String.data_append, String.data_append, ih]
      simp

theorem joinCharPlus_encItems :
    ∀ shs : List Shape, joinCharPlus (shs.map encItem) = encSeq shs := by
  intro shs
  induction shs with
  | nil => rfl
  | cons sh rest ih =>
    cases rest with
    | nil => rfl
    | cons x xs =>
      show encItem sh ++ '+' :: joinCharPlus ((x :: xs).map encItem) =
        encItem sh ++ '+' :: encSeq (x :: xs)
      rw [ih]

mutual
/-- The fingerprint is exactly the serialization of the child-shape
forest. -/
theorem generar_huella_data :
    ∀ t : Node, (generar_huella t).data = encSeq (childForest t)
  | .text s => rfl
  | .elem nm a cs => by
    show (joinWith "+" (huellaParts cs)).data = encSeq (shapeForest cs)
    rw [joinWith_plus_data, huellaParts_data cs, joinCharPlus_encItems]

/-- The fingerprint parts are the serializations of the child shapes. -/
theorem huellaParts_data :
    ∀ cs : List Node,
      (huellaParts cs).map String.data = (shapeForest cs).map encItem
  | [] => rfl
  | .text s :: rest => by
    show (huellaParts rest).map String.data = (shapeForest rest).map encItem
    exact huellaParts_data rest
  | .elem nm a cs :: rest => by
    show ((nm ++ (if generar_huella (.elem nm a cs) = "" then ""
        else "[" ++ generar_huella (.elem nm a cs) ++ "]")) ::
          huellaParts rest).map String.data =
      (shapeOf (.elem nm a cs) :: shapeForest rest).map encItem
    simp only [List.map_cons]
    have hchild : (generar_huella (.elem nm a cs)).data =
        encSeq (shapeForest cs) := generar_huella_data (.elem nm a cs)
    have htail := huellaParts_data rest
    rw [htail]
    congr 1
    show (nm ++ (if generar_huella (.elem nm a cs) = "" then ""
        else "[" ++ generar_huella (.elem nm a cs) ++ "]")).data =
      encItem (.node nm (shapeForest cs))
    rw [String.data_append]
    unfold encItem
    by_cases hh : generar_huella (.elem nm a cs) = ""
    · rw [if_pos hh]
      have : encSeq (shapeForest cs) = [] := by
        rw [← hchild]
        show (generar_huella (.elem nm a cs)).data = []
        rw [hh]
      rw [if_pos this]
    · rw [if_neg hh]
      have hne : encSeq (shapeForest cs) ≠ [] := by
        rw [← hchild]
        intro h0
        exact hh (string_eq_empty_iff.mpr h0)
      rw [if_neg hne]
      rw [String.data_append, String.data_append]
      rw [hchild]
      simp
end

mutual
/-- Parser-legal children lists give parser-legal shape forests. -/
theorem okForest_of_okList :
    ∀ cs : List Node, okListB cs = true → okForestB (shapeForest cs) = true
  | [] => fun _ => rfl
  | .text s :: rest => fun h => by
    simp only [okListB, Bool.and_eq_true] at h
    show okForestB (shapeForest rest) = true
    exact okForest_of_okList rest h.2
  | .elem nm a cs :: rest => fun h => by
    simp only [okListB, Bool.and_eq_true] at h
    show okForestB (shapeOf (.elem nm a cs) :: shapeForest rest) = true
    simp only [okForestB, Bool.and_eq_true]
    exact ⟨okShape_of_okElem nm a cs h.1, okForest_of_okList rest h.2⟩

/-- Parser-legal elements give parser-legal shapes. -/
theorem okShape_of_okElem :
    ∀ (nm : String) (a : List (String × String)) (cs : List Node),
      okNodeB (.elem nm a cs) = true → okShapeB (shapeOf (.elem nm a cs)) = true
  | nm, a, cs => fun h => by
    simp only [okNodeB, Bool.and_eq_true] at h
    show okShapeB (.node nm (shapeForest cs)) = true
    simp only [okShapeB, Bool.and_eq_true]
    exact ⟨⟨h.1.1, h.1.2⟩, okForest_of_okList cs h.2⟩
end

theorem okForest_childForest {t : Node} (h : okNodeB t = true) :
    okForestB (childForest t) = true := by
  cases t with
  | text s => rfl
  | elem nm a cs =>
    simp only [okNodeB, Bool.and_eq_true] at h
    exact okForest_of_okList cs h.2

/-! ### Claim C6 -/

/-- Claim C6 counterexample: `<ul><li/></ul>` and `<ol><li/></ol>` differ in
a tag name (the root's own) yet have equal structural fingerprints — the
fingerprint only records the shape below the node. -/
theorem c6_counterexample :
    generar_huella (Node.elem "ul" [] [.elem "li" [] []])
      = generar_huella (Node.elem "ol" [] [.elem "li" [] []]) ∧
    nodeName (Node.elem "ul" [] [.elem "li" [] []])
      ≠ nodeName (Node.elem "ol" [] [.elem "li" [] []]) :=
  ⟨rfl, by decide⟩

/-- Claim C6 (amended): the structural fingerprint characterizes exactly the
tag-shape of the forest *below* the node — for parser-legal tag names
(non-empty, free of the punctuation `+`, `[`, `]`), two subtrees have equal
fingerprints if and only if their element-children shape forests (tag names,
child counts, nesting, ignoring attributes and text) are equal.  The root's
own tag name is not part of its fingerprint (`c6_counterexample`). -/
theorem c6_fingerprint_characterizes_child_shape :
    ∀ t₁ t₂ : Node, okNodeB t₁ = true → okNodeB t₂ = true →
      (generar_huella t₁ = generar_huella t₂ ↔
        childForest t₁ = childForest t₂) := by
  intro t₁ t₂ h₁ h₂
  constructor
  · intro heq
    have hd : encSeq (childForest t₁) = encSeq (childForest t₂) := by
      rw [← generar_huella_data, ← generar_huella_data, heq]
    exact encSeq_inj (okForest_childForest h₁) (okForest_childForest h₂) hd
  · intro heq
    apply string_data_inj
    rw [generar_huella_data, generar_huella_data, heq]

/-- Claim C6 witness: applied to `<ul><li/></ul>` and `<ol><li/></ol>`,
whose fingerprints are both `"li"`, the equivalence yields equal child
forests. -/
theorem c6_fingerprint_characterizes_child_shape_witness :
    childForest (Node.elem "ul" [] [.elem "li" [] []])
      = childForest (Node.elem "ol" [] [.elem "li" [] []]) :=
  (c6_fingerprint_characterizes_child_shape
    (Node.elem "ul" [] [.elem "li" [] []])
    (Node.elem "ol" [] [.elem "li" [] []]) (by decide) (by decide)).mp rfl

/-! ### Sortedness of the stable sort -/

theorem pairwise_stableInsert {α : Type} {bf : α → α → Bool}
    (hasym : ∀ a b, bf a b = true → bf b a = false)
    (htrans : ∀ a b c, bf a b = true → bf c b = false → bf c a = false)
    (x : α) :
    ∀ l : List α, l.Pairwise (fun a b => bf b a = false) →
      (stableInsert bf x l).Pairwise (fun a b => bf b a = false) := by
  intro l
  induction l with
  | nil => intro _; simp [stableInsert]
  | cons y ys ih =>
    intro hp
    rw [List.pairwise_cons] at hp
    obtain ⟨hy, hys⟩ := hp
    unfold stableInsert
    by_cases hb : bf x y
    · rw [if_pos hb]
      rw [List.pairwise_cons]
      refine ⟨?_, List.pairwise_cons.mpr ⟨hy, hys⟩⟩
      intro z hz
      rw [List.mem_cons] at hz
      rcases hz with rfl | hz
      · exact hasym x z hb
      · exact htrans x y z hb (hy z hz)
    · rw [if_neg hb]
      rw [List.pairwise_cons]
      refine ⟨?_, ih hys⟩
      intro z hz
      rw [mem_stableInsert] at hz
      rcases hz with rfl | hz
      · exact eq_false_of_ne_true hb
      · exact hy z hz

theorem pairwise_stableSort {α : Type} {bf : α → α → Bool}
    (hasym : ∀ a b, bf a b = true → bf b a = false)
    (htrans : ∀ a b c, bf a b = true → bf c b = false → bf c a = false)
    (l : List α) :
    (stableSort bf l).Pairwise (fun a b => bf b a = false) := by
  have key : ∀ (l acc : List α),
      acc.Pairwise (fun a b => bf b a = false) →
      (l.foldl (fun acc x => stableInsert bf x acc) acc).Pairwise
        (fun a b => bf b a = false) := by
    intro l
    induction l with
    | nil => intro acc h; exact h
    | cons x xs ih =>
      intro acc h
      exact ih _ (pairwise_stableInsert hasym htrans x acc h)
  exact key l [] (by simp)

theorem tripleLt_iff {x y : Nat × Nat × Nat} :
    tripleLt x y = true ↔
      x.1 < y.1 ∨ (x.1 = y.1 ∧
        (x.2.1 < y.2.1 ∨ (x.2.1 = y.2.1 ∧ x.2.2 < y.2.2))) := by
  simp [tripleLt]

theorem tripleLt_asym {x y : Nat × Nat × Nat}
    (h : tripleLt x y = true) : tripleLt y x = false := by
  rw [tripleLt_iff] at h
  rw [← Bool.not_eq_true, tripleLt_iff]
  omega

theorem tripleLt_flip_trans {x y z : Nat × Nat × Nat}
    (h1 : tripleLt x y = true) (h2 : tripleLt x z = false) :
    tripleLt y z = false := by
  rw [tripleLt_iff] at h1
  rw [← Bool.not_eq_true, tripleLt_iff] at h2
  rw [← Bool.not_eq_true, tripleLt_iff]
  omega

/-! ### Claim C9 -/

/-- Claim C9 counterexample: the fingerprint-dominant engine applies no
ranking whatsoever — on `docC9` it returns the containers in document order
with unit counts `[3, 4]`, which is not descending. -/
theorem c9_counterexample :
    (encontrar_contenedores_relevantes docC9).1.map (fun r => r.unit_count)
      = [3, 4] ∧ 3 < 4 :=
  ⟨rfl, by decide⟩

/-- Claim C9 (amended): the statistical engine's output is sorted by the
triple `(unit_count, #variable, #shared)` in descending lexicographic order
(no later result's key exceeds an earlier one's); the fingerprint-dominant
engine applies no ranking and returns document order
(`c9_counterexample`). -/
theorem c9_detector_ranking_sorted :
    ∀ (root : Node) (min_units : Nat),
      (analyze_html_all root min_units).Pairwise
        (fun a b => tripleLt (bKey a) (bKey b) = false) := by
  intro root mu
  unfold analyze_html_all
  exact @pairwise_stableSort BResult (fun a b => tripleLt (bKey b) (bKey a))
    (fun a b h => tripleLt_asym h)
    (fun a b c h1 h2 => tripleLt_flip_trans h1 h2) _

/-! ### Classification characterizations (statistical engine) -/

theorem classifyStep_variable_iff {ts tv : ℚ} {k : String} {s : AttrStat} :
    (classifyStep ts tv ([], [], []) (k, s)).2.1 ≠ [] ↔
      ((s.present_ratio ≥ ts ∧
          ¬(s.unique_ratio < 15 / 100 ∧ s.avg_length + s.length_var < 8)) ∨
        (¬ s.present_ratio ≥ ts ∧ s.present_ratio ≥ tv ∧
          (s.unique_ratio > 15 / 100 ∨ s.avg_length + s.length_var > 10))) := by
  unfold classifyStep
  dsimp only
  by_cases h1 : s.present_ratio ≥ ts
  · rw [if_pos h1]
    by_cases h2 : s.unique_ratio < 15 / 100 ∧ s.avg_length + s.length_var < 8
    · rw [if_pos h2]; simp [h1, h2]
    · rw [if_neg h2]; simp [h1, h2]
  · rw [if_neg h1]
    by_cases h3 : s.present_ratio ≥ tv
    · rw [if_pos h3]
      by_cases h4 : s.unique_ratio > 15 / 100 ∨ s.avg_length + s.length_var > 10
      · rw [if_pos h4]; simp [h1, h3, h4]
      · rw [if_neg h4]; simp [h1, h3, h4]
    · rw [if_neg h3]; simp [h1, h3]

theorem classifyStep_shared_iff {ts tv : ℚ} {k : String} {s : AttrStat} :
    (classifyStep ts tv ([], [], []) (k, s)).1 ≠ [] ↔
      (s.present_ratio ≥ ts ∧
        s.unique_ratio < 15 / 100 ∧ s.avg_length + s.length_var < 8) := by
  unfold classifyStep
  dsimp only
  by_cases h1 : s.present_ratio ≥ ts
  · rw [if_pos h1]
    by_cases h2 : s.unique_ratio < 15 / 100 ∧ s.avg_length + s.length_var < 8
    · rw [if_pos h2]; simp [h1, h2]
    · rw [if_neg h2]; simp [h1, h2]
  · rw [if_neg h1]
    by_cases h3 : s.present_ratio ≥ tv
    · rw [if_pos h3]
      by_cases h4 : s.unique_ratio > 15 / 100 ∨ s.avg_length + s.length_var > 10
      · rw [if_pos h4]; simp [h1, h3, h4]
      · rw [if_neg h4]; simp [h1, h3, h4]
    · rw [if_neg h3]; simp [h1, h3]

theorem classifyStep_noise_iff {ts tv : ℚ} {k : String} {s : AttrStat} :
    (classifyStep ts tv ([], [], []) (k, s)).2.2 ≠ [] ↔
      ((¬ s.present_ratio ≥ ts ∧ s.present_ratio ≥ tv ∧
          ¬(s.unique_ratio > 15 / 100 ∨ s.avg_length + s.length_var > 10)) ∨
        (¬ s.present_ratio ≥ ts ∧ ¬ s.present_ratio ≥ tv)) := by
  unfold classifyStep
  dsimp only
  by_cases h1 : s.present_ratio ≥ ts
  · rw [if_pos h1]
    by_cases h2 : s.unique_ratio < 15 / 100 ∧ s.avg_length + s.length_var < 8
    · rw [if_pos h2]; simp [h1, h2]
    · rw [if_neg h2]; simp [h1, h2]
  · rw [if_neg h1]
    by_cases h3 : s.present_ratio ≥ tv
    · rw [if_pos h3]
      by_cases h4 : s.unique_ratio > 15 / 100 ∨ s.avg_length + s.length_var > 10
      · rw [if_pos h4]; simp [h1, h3, h4]
      · rw [if_neg h4]; simp [h1, h3, h4]
    · rw [if_neg h3]; simp [h1, h3]

theorem classifyStep_append (ts tv : ℚ)
    (acc : List String × List String × List String) (ks : String × AttrStat) :
    classifyStep ts tv acc ks =
      (acc.1 ++ (classifyStep ts tv ([], [], []) ks).1,
       acc.2.1 ++ (classifyStep ts tv ([], [], []) ks).2.1,
       acc.2.2 ++ (classifyStep ts tv ([], [], []) ks).2.2) := by
  unfold classifyStep
  dsimp only
  by_cases h1 : ks.2.present_ratio ≥ ts
  · rw [if_pos h1, if_pos h1]
    by_cases h2 : ks.2.unique_ratio < 15 / 100 ∧
        ks.2.avg_length + ks.2.length_var < 8
    · rw [if_pos h2, if_pos h2]; simp
    · rw [if_neg h2, if_neg h2]; simp
  · rw [if_neg h1, if_neg h1]
    by_cases h3 : ks.2.present_ratio ≥ tv
    · rw [if_pos h3, if_pos h3]
      by_cases h4 : ks.2.unique_ratio > 15 / 100 ∨
          ks.2.avg_length + ks.2.length_var > 10
      · rw [if_pos h4, if_pos h4]; simp
      · rw [if_neg h4, if_neg h4]; simp
    · rw [if_neg h3, if_neg h3]; simp

theorem classifyStep_single_shape (ts tv : ℚ) (k : String) (s : AttrStat) :
    ((classifyStep ts tv ([], [], []) (k, s)).1 = [] ∨
      (classifyStep ts tv ([], [], []) (k, s)).1 = [k]) ∧
    ((classifyStep ts tv ([], [], []) (k, s)).2.1 = [] ∨
      (classifyStep ts tv ([], [], []) (k, s)).2.1 = [k]) ∧
    ((classifyStep ts tv ([], [], []) (k, s)).2.2 = [] ∨
      (classifyStep ts tv ([], [], []) (k, s)).2.2 = [k]) := by
  unfold classifyStep
  dsimp only
  by_cases h1 : s.present_ratio ≥ ts
  · rw [if_pos h1]
    by_cases h2 : s.unique_ratio < 15 / 100 ∧ s.avg_length + s.length_var < 8
    · rw [if_pos h2]; simp
    · rw [if_neg h2]; simp
  · rw [if_neg h1]
    by_cases h3 : s.present_ratio ≥ tv
    · rw [if_pos h3]
      by_cases h4 : s.unique_ratio > 15 / 100 ∨ s.avg_length + s.length_var > 10
      · rw [if_pos h4]; simp
      · rw [if_neg h4]; simp
    · rw [if_neg h3]; simp

theorem mem_singleton_shape {k k0 : String} {δ : List String}
    (hs : δ = [] ∨ δ = [k0]) : k ∈ δ ↔ k = k0 ∧ δ ≠ [] := by
  rcases hs with rfl | rfl <;> simp

theorem mem_classify_fold (ts tv : ℚ) :
    ∀ (stats : List (String × AttrStat))
      (acc : List String × List String × List String) (k : String),
      (k ∈ (stats.foldl (classifyStep ts tv) acc).1 ↔
        k ∈ acc.1 ∨ ∃ s, (k, s) ∈ stats ∧
          (classifyStep ts tv ([], [], []) (k, s)).1 ≠ []) ∧
      (k ∈ (stats.foldl (classifyStep ts tv) acc).2.1 ↔
        k ∈ acc.2.1 ∨ ∃ s, (k, s) ∈ stats ∧
          (classifyStep ts tv ([], [], []) (k, s)).2.1 ≠ []) ∧
      (k ∈ (stats.foldl (classifyStep ts tv) acc).2.2 ↔
        k ∈ acc.2.2 ∨ ∃ s, (k, s) ∈ stats ∧
          (classifyStep ts tv ([], [], []) (k, s)).2.2 ≠ []) := by
  intro stats
  induction stats with
  | nil => intro acc k; simp
  | cons ks rest ih =>
    intro acc k
    obtain ⟨k0, s0⟩ := ks
    simp only [List.foldl_cons]
    obtain ⟨sh1, sh2, sh3⟩ := classifyStep_single_shape ts tv k0 s0
    obtain ⟨ih1, ih2, ih3⟩ := ih (classifyStep ts tv acc (k0, s0)) k
    refine ⟨?_, ?_, ?_⟩
    · rw [ih1, classifyStep_append]
      simp only [List.mem_append, List.mem_cons]
      rw [mem_singleton_shape sh1]
      constructor
      · rintro ((hk | ⟨rfl, hne⟩) | ⟨s, hs, hne⟩)
        · exact Or.inl hk
        · exact Or.inr ⟨s0, Or.inl rfl, hne⟩
        · exact Or.inr ⟨s, Or.inr hs, hne⟩
      · rintro (hk | ⟨s, (hks | hs), hne⟩)
        · exact Or.inl (Or.inl hk)
        · obtain ⟨rfl, rfl⟩ : k = k0 ∧ s = s0 := by
            cases hks; exact ⟨rfl, rfl⟩
          exact Or.inl (Or.inr ⟨rfl, hne⟩)
        · exact Or.inr ⟨s, hs, hne⟩
    · rw [ih2, classifyStep_append]
      simp only [List.mem_append, List.mem_cons]
      rw [mem_singleton_shape sh2]
      constructor
      · rintro ((hk | ⟨rfl, hne⟩) | ⟨s, hs, hne⟩)
        · exact Or.inl hk
        · exact Or.inr ⟨s0, Or.inl rfl, hne⟩
        · exact Or.inr ⟨s, Or.inr hs, hne⟩
      · rintro (hk | ⟨s, (hks | hs), hne⟩)
        · exact Or.inl (Or.inl hk)
        · obtain ⟨rfl, rfl⟩ : k = k0 ∧ s = s0 := by
            cases hks; exact ⟨rfl, rfl⟩
          exact Or.inl (Or.inr ⟨rfl, hne⟩)
        · exact Or.inr ⟨s, hs, hne⟩
    · rw [ih3, classifyStep_append]
      simp only [List.mem_append, List.mem_cons]
      rw [mem_singleton_shape sh3]
      constructor
      · rintro ((hk | ⟨rfl, hne⟩) | ⟨s, hs, hne⟩)
        · exact Or.inl hk
        · exact Or.inr ⟨s0, Or.inl rfl, hne⟩
        · exact Or.inr ⟨s, Or.inr hs, hne⟩
      · rintro (hk | ⟨s, (hks | hs), hne⟩)
        · exact Or.inl (Or.inl hk)
        · obtain ⟨rfl, rfl⟩ : k = k0 ∧ s = s0 := by
            cases hks; exact ⟨rfl, rfl⟩
          exact Or.inl (Or.inr ⟨rfl, hne⟩)
        · exact Or.inr ⟨s, hs, hne⟩

theorem snd_eq_of_mem_keys_nodup {β : Type} {l : List (String × β)}
    (h : (l.map Prod.fst).Nodup) {k : String} {s s' : β}
    (h1 : (k, s) ∈ l) (h2 : (k, s') ∈ l) : s = s' := by
  induction l with
  | nil => cases h1
  | cons hd rest ih =>
    rw [List.map_cons, List.nodup_cons] at h
    rcases List.mem_cons.mp h1 with rfl | h1'
    · rcases List.mem_cons.mp h2 with he | h2'
      · cases he; rfl
      · exact absurd (List.mem_map.mpr ⟨(k, s'), h2', rfl⟩) h.1
    · rcases List.mem_cons.mp h2 with rfl | h2'
      · exact absurd (List.mem_map.mpr ⟨(k, s), h1', rfl⟩) h.1
      · exact ih h.2 h1' h2'

/-- What `analyze_container` returns when it succeeds: the three sorted
classification lists over the computed statistics. -/
theorem analyze_container_spec {c : Node} {min_units : Nat}
    {ts tv : ℚ} {r : BResult}
    (h : analyze_container c min_units ts tv = some r) :
    ∃ cnm cattrs ccs, c = Node.elem cnm cattrs ccs ∧
      (r.attr_stats.map Prod.fst).Nodup ∧
      r.shared_attrs = stableSort strLtB
        (r.attr_stats.foldl (classifyStep ts tv) ([], [], [])).1 ∧
      r.semantic_variable_attrs = stableSort strLtB
        (r.attr_stats.foldl (classifyStep ts tv) ([], [], [])).2.1 ∧
      r.noise_attrs = stableSort strLtB
        (r.attr_stats.foldl (classifyStep ts tv) ([], [], [])).2.2 := by
  unfold analyze_container at h
  cases c with
  | text s => exact absurd h (by simp)
  | elem cnm cattrs ccs =>
    dsimp only at h
    by_cases hlen : (elemChildren ccs).length < min_units
    · rw [if_pos hlen] at h; exact absurd h (by simp)
    · rw [if_neg hlen] at h
      simp only [Option.some.injEq] at h
      subst h
      refine ⟨cnm, cattrs, ccs, rfl, ?_, rfl, rfl, rfl⟩
      have : (((((elemChildren ccs).map collect_attrs).flatMap
          (fun d => d.map (fun kv => kv.1))).dedup).map
            (fun a => (a, attrStatOf ((elemChildren ccs).map collect_attrs)
              (elemChildren ccs).length a))).map Prod.fst =
          ((((elemChildren ccs).map collect_attrs).flatMap
            (fun d => d.map (fun kv => kv.1))).dedup) := by
        rw [List.map_map]
        simp [Function.comp_def]
      rw [this]
      exact List.nodup_dedup _

/-! ### Claim C5 -/

/-- Claim C5: in the statistical strategy with the default thresholds every
FieldKey of an analyzed container is classified exactly by the documented
formula: for `p ≥ 0.95`, shared when `u < 0.15` and complexity `< 8`, else
variable; for `0.3 ≤ p < 0.95`, variable when `u > 0.15` or complexity
`> 10`, else noise; for `p < 0.3`, noise. -/
theorem c5_statistical_classification :
    ∀ (c : Node) (min_units : Nat) (r : BResult),
      analyze_container c min_units (95 / 100) (3 / 10) = some r →
      ∀ (k : String) (s : AttrStat), (k, s) ∈ r.attr_stats →
        (k ∈ r.shared_attrs ↔
          (s.present_ratio ≥ 95 / 100 ∧ s.unique_ratio < 15 / 100 ∧
            s.avg_length + s.length_var < 8)) ∧
        (k ∈ r.semantic_variable_attrs ↔
          ((s.present_ratio ≥ 95 / 100 ∧
            ¬(s.unique_ratio < 15 / 100 ∧ s.avg_length + s.length_var < 8)) ∨
          (3 / 10 ≤ s.present_ratio ∧ s.present_ratio < 95 / 100 ∧
            (s.unique_ratio > 15 / 100 ∨ s.avg_length + s.length_var > 10)))) ∧
        (k ∈ r.noise_attrs ↔
          ((3 / 10 ≤ s.present_ratio ∧ s.present_ratio < 95 / 100 ∧
            ¬(s.unique_ratio > 15 / 100 ∨ s.avg_length + s.length_var > 10)) ∨
          s.present_ratio < 3 / 10)) := by
  intro c mu r h k s hks
  obtain ⟨cnm, cattrs, ccs, _, hnd, hsh, hvar, hnoi⟩ := analyze_container_spec h
  obtain ⟨f1, f2, f3⟩ := mem_classify_fold (95 / 100) (3 / 10)
    r.attr_stats ([], [], []) k
  have huniq : ∀ s', (k, s') ∈ r.attr_stats → s' = s :=
    fun s' hs' => snd_eq_of_mem_keys_nodup hnd hs' hks
  refine ⟨?_, ?_, ?_⟩
  · rw [hsh, mem_stableSort, f1]
    simp only [List.not_mem_nil, false_or]
    constructor
    · rintro ⟨s', hs', hne⟩
      rw [huniq s' hs'] at hne
      rw [classifyStep_shared_iff] at hne
      exact hne
    · intro hcond
      exact ⟨s, hks, classifyStep_shared_iff.mpr hcond⟩
  · rw [hvar, mem_stableSort, f2]
    simp only [List.not_mem_nil, false_or]
    constructor
    · rintro ⟨s', hs', hne⟩
      rw [huniq s' hs'] at hne
      rw [classifyStep_variable_iff] at hne
      rcases hne with ⟨h1, h2⟩ | ⟨h1, h2, h3⟩
      · exact Or.inl ⟨h1, h2⟩
      · exact Or.inr ⟨h2, not_le.mp h1, h3⟩
    · intro hcond
      refine ⟨s, hks, classifyStep_variable_iff.mpr ?_⟩
      rcases hcond with ⟨h1, h2⟩ | ⟨h1, h2, h3⟩
      · exact Or.inl ⟨h1, h2⟩
      · exact Or.inr ⟨not_le.mpr h2, h1, h3⟩
  · rw [hnoi, mem_stableSort, f3]
    simp only [List.not_mem_nil, false_or]
    constructor
    · rintro ⟨s', hs', hne⟩
      rw [huniq s' hs'] at hne
      rw [classifyStep_noise_iff] at hne
      rcases hne with ⟨h1, h2, h3⟩ | ⟨h1, h2⟩
      · exact Or.inl ⟨h2, not_le.mp h1, h3⟩
      · exact Or.inr (not_le.mp h2)
    · intro hcond
      refine ⟨s, hks, classifyStep_noise_iff.mpr ?_⟩
      rcases hcond with ⟨h1, h2, h3⟩ | h1
      · exact Or.inl ⟨not_le.mpr h2, h1, h3⟩
      · refine Or.inr ⟨?_, not_le.mpr h1⟩
        intro hge
        have : (3 : ℚ) / 10 ≤ 95 / 100 := by norm_num
        exact absurd (le_trans this hge) (not_le.mpr (lt_of_lt_of_le h1 this))

/-- Claim C5 witness: the `self::a` key of `docC3`'s container (presence
ratio 1, uniqueness 1/7, complexity 1) is classified shared. -/
theorem c5_statistical_classification_witness :
    "self::a" ∈
      ({ container_tag := "div", unit_root_tag := "i", unit_count := 7,
         shared_attrs := ["self::a"], semantic_variable_attrs := [],
         noise_attrs := [],
         attr_stats := [("self::a",
           { present := 7, present_ratio := 1, unique_values := 1,
             unique_ratio := 1 / 7, avg_length := 1, length_var := 0,
             sample_values := ["x", "x", "x", "x", "x", "x"] })] } :
        BResult).shared_attrs :=
  ((c5_statistical_classification
      (.elem "div" [] (List.replicate 7 (.elem "i" [("a", "x")] []))) 2 _
      rfl "self::a"
      { present := 7, present_ratio := 1, unique_values := 1,
        unique_ratio := 1 / 7, avg_length := 1, length_var := 0,
        sample_values := ["x", "x", "x", "x", "x", "x"] }
      (by decide)).1).mpr ⟨by decide, by decide, by decide⟩

/-! ### Claim C10 -/

/-- Claim C10 counterexample: raising the frequency threshold from 3/5 to
4/5 makes the engine accept a container (`docC8`'s second `<div>`, position
`[0,0,1]`) that the lower threshold did not report: at 3/5 its sibling is
accepted first and the second div is discarded by the shared-xpath filter,
while at 4/5 the sibling fails dominance and the second div is reported. -/
theorem c10_counterexample :
    (3 / 5 : ℚ) ≤ 4 / 5 ∧
    [0, 0, 1] ∉ (encontrarConUmbral (3 / 5) docC8).1.map (fun r => r.pos) ∧
    [0, 0, 1] ∈ (encontrarConUmbral (4 / 5) docC8).1.map (fun r => r.pos) := by
  refine ⟨by norm_num, by decide, by decide⟩

/-- Claim C10 (amended): per container and per FieldKey both strategies are
monotone — a container whose loop-body analysis is accepted at a raised
frequency threshold was accepted at the lower one (raising the threshold can
only reject), and a FieldKey classified variable (resp. shared) at raised
statistical thresholds was already classified variable (resp. shared) at the
lower ones, so raising thresholds never moves a FieldKey toward `variable`
and never promotes one into `shared`.  The full fingerprint-engine pipeline
is however not monotone in its reported set: by `c10_counterexample` the
shared-xpath duplicate filter can report a container at a raised threshold
that the lower threshold suppressed. -/
theorem c10_threshold_monotonicity :
    (∀ (u u' : ℚ) (root : Node) (p : List Nat), u ≤ u' →
      analyzeElemA u' root p ≠ none → analyzeElemA u root p ≠ none) ∧
    (∀ (ts ts' tv tv' : ℚ) (k : String) (s : AttrStat),
      ts ≤ ts' → tv ≤ tv' →
      ((classifyStep ts' tv' ([], [], []) (k, s)).2.1 ≠ [] →
        (classifyStep ts tv ([], [], []) (k, s)).2.1 ≠ []) ∧
      ((classifyStep ts' tv' ([], [], []) (k, s)).1 ≠ [] →
        (classifyStep ts tv ([], [], []) (k, s)).1 ≠ [])) := by
  constructor
  · intro u u' root p hle h
    unfold analyzeElemA at h ⊢
    cases hg : getNode root p with
    | none => rw [hg] at h; simp at h
    | some n =>
      rw [hg] at h
      cases n with
      | text s => simp at h
      | elem nm attrs cs =>
        dsimp only at h ⊢
        by_cases hlen : (elemChildren cs).length < MIN_HIJOS_REQUERIDOS
        · rw [if_pos hlen] at h; simp at h
        · rw [if_neg hlen] at h ⊢
          cases hmax : maxGroup (groupByHuella (elemChildren cs)) with
          | none => rw [hmax] at h; simp at h
          | some g =>
            rw [hmax] at h
            obtain ⟨hd, us⟩ := g
            dsimp only at h ⊢
            by_cases hfreq :
                (us.length : ℚ) / ((elemChildren cs).length : ℚ) ≥ u'
            · rw [if_pos hfreq] at h
              rw [if_pos (le_trans hle hfreq)]
              exact h
            · rw [if_neg hfreq] at h; simp at h
  · intro ts ts' tv tv' k s hts htv
    constructor
    · intro h
      rw [classifyStep_variable_iff] at h ⊢
      rcases h with ⟨h1, h2⟩ | ⟨h1, h2, h3⟩
      · exact Or.inl ⟨le_trans hts h1, h2⟩
      · by_cases hts2 : s.present_ratio ≥ ts
        · refine Or.inl ⟨hts2, ?_⟩
          rcases h3 with h3 | h3
          · intro ⟨hu, _⟩; exact absurd h3 (not_lt.mpr (le_of_lt hu))
          · intro ⟨_, hc⟩; linarith
        · exact Or.inr ⟨hts2, le_trans htv h2, h3⟩
    · intro h
      rw [classifyStep_shared_iff] at h ⊢
      exact ⟨le_trans hts h.1, h.2⟩

/-- Claim C10 witness: concrete instances of both monotonicity parts —
`docC8`'s second `<div>` body-accepted at threshold 4/5 is body-accepted at
3/5, and a FieldKey with presence 1 and uniqueness 1/2 classified variable at
raised thresholds (96/100, 4/10) is variable at the defaults (95/100,
3/10). -/
theorem c10_threshold_monotonicity_witness :
    analyzeElemA (3 / 5) docC8 [0, 0, 1] ≠ none ∧
    (classifyStep (95 / 100) (3 / 10) ([], [], [])
      ("self::text",
        { present := 2, present_ratio := 1, unique_values := 2,
          unique_ratio := 1 / 2, avg_length := 5, length_var := 4,
          sample_values := [] })).2.1 ≠ [] :=
  ⟨c10_threshold_monotonicity.1 (3 / 5) (4 / 5) docC8 [0, 0, 1]
      (by norm_num) (by decide),
   (c10_threshold_monotonicity.2 (95 / 100) (96 / 100) (3 / 10) (4 / 10)
      "self::text"
      { present := 2, present_ratio := 1, unique_values := 2,
        unique_ratio := 1 / 2, avg_length := 5, length_var := 4,
        sample_values := [] }
      (by norm_num) (by norm_num)).1 (by decide)⟩

end KnowFlow
